import Mathlib

/-!
Shallow embedding of the SSD NAND FTL simulator
(`nand.py`, `ftl.py`, `baseline_ftl.py`, `adaptive_ftl.py`).

Python floats are modelled as exact rationals (`ℚ`), Python ints as `Int`
(for the block counters, which Python never guards against going negative)
or `Nat` (for values that are only ever incremented or used as indices).
Python dicts are modelled as functions to `Option`.
Exceptions raised by `BaseFTL.write` are modelled by returning the
partially-mutated state together with an `Option WriteErr`.
-/

set_option maxRecDepth 4000

/-! ### Kernel-computable rational arithmetic

`Rat.add`, `Rat.sub`, `Rat.mul`, `Rat.div` and `Rat.inv` are `@[irreducible]`
in this toolchain, so terms built from them cannot be evaluated by `decide`.
The embedding therefore uses the mirrors below, each proved equal to the
corresponding field operation on `ℚ`, so that concrete program runs can be
evaluated by the kernel while abstract proofs rewrite to the ordinary
operations. -/
def qadd (a b : ℚ) : ℚ := mkRat (a.num * b.den + b.num * a.den) (a.den * b.den)

def qsub (a b : ℚ) : ℚ := mkRat (a.num * b.den - b.num * a.den) (a.den * b.den)

def qmul (a b : ℚ) : ℚ := mkRat (a.num * b.num) (a.den * b.den)

def qinv (a : ℚ) : ℚ := Rat.divInt a.den a.num

def qdiv (a b : ℚ) : ℚ := qmul a (qinv b)

def qsum (l : List ℚ) : ℚ := l.foldl qadd 0

/-- The decimal literal `m · 10⁻ᵉ` (Python source literals such as `0.20`;
`Rat.ofScientific`, which the literal notation elaborates to, is likewise
`@[irreducible]`). -/
def qsci (m e : Nat) : ℚ := mkRat m (10 ^ e)

/-! ### nand.py : PageState, Page, Block, NANDFlash -/
inductive PageState where
  | FREE
  | VALID
  | INVALID
deriving DecidableEq, Repr

structure Page where
  state : PageState
  logical_address : Option Nat
deriving DecidableEq, Repr

/-- `Page()` : a freshly constructed page. -/
def Page.fresh : Page := ⟨.FREE, none⟩

structure Block where
  block_id : Nat
  pages_per_block : Nat
  erase_count : Nat
  pages : List Page
  free_pages : Int
  valid_pages : Int
  invalid_pages : Int
  next_free_page_index : Nat
deriving DecidableEq, Repr

/-- `Block(block_id, pages_per_block)` constructor. -/
def Block.init (id ppb : Nat) : Block :=
  { block_id := id, pages_per_block := ppb, erase_count := 0,
    pages := List.replicate ppb Page.fresh,
    free_pages := ppb, valid_pages := 0, invalid_pages := 0,
    next_free_page_index := 0 }

/-- `Block.write_page(logical_address)`.  Returns
`(success, page index written, updated block)`; on failure Python returns the
string "Block is full" in the second slot, which no caller reads, so the
index slot is a dummy `0` there.  The tag is an `Option` because GC migration
passes `page.logical_address` through unchanged. -/
def Block.write_page (b : Block) (tag : Option Nat) : Bool × Nat × Block :=
  if b.next_free_page_index ≥ b.pages_per_block then (false, 0, b)
  else
    (true, b.next_free_page_index,
      { b with pages := b.pages.set b.next_free_page_index ⟨.VALID, tag⟩,
               free_pages := b.free_pages - 1,
               valid_pages := b.valid_pages + 1,
               next_free_page_index := b.next_free_page_index + 1 })

/-- `Block.invalidate_page(page_index)` : no-op unless the index is in range
and the page is VALID; then flips it to INVALID and clears its tag. -/
def Block.invalidate_page (b : Block) (page_index : Nat) : Block :=
  if page_index < b.pages_per_block then
    if (b.pages.getD page_index Page.fresh).state = .VALID then
      { b with pages := b.pages.set page_index ⟨.INVALID, none⟩,
               valid_pages := b.valid_pages - 1,
               invalid_pages := b.invalid_pages + 1 }
    else b
  else b

/-- `Block.erase()`. -/
def Block.erase (b : Block) : Block :=
  { b with erase_count := b.erase_count + 1,
           pages := List.replicate b.pages_per_block Page.fresh,
           free_pages := b.pages_per_block, valid_pages := 0, invalid_pages := 0,
           next_free_page_index := 0 }

/-- `Block.get_invalid_ratio()`. -/
def Block.get_invalid_ratio (b : Block) : ℚ :=
  if 0 < b.pages_per_block then qdiv (b.invalid_pages : ℚ) (b.pages_per_block : ℚ) else 0

structure NANDFlash where
  total_blocks : Nat
  pages_per_block : Nat
  op_ratio : ℚ
  reserved_blocks_count : Int
  logical_blocks_count : Int
  blocks : List Block
deriving DecidableEq, Repr

/-- Python `int(q)` : truncation toward zero. -/
def ratTrunc (q : ℚ) : Int := q.num.tdiv (q.den : Int)

/-- `NANDFlash(total_blocks, pages_per_block, op_ratio)`. -/
def NANDFlash.init (tb ppb : Nat) (op_ratio : ℚ) : NANDFlash :=
  let reserved : Int := ratTrunc (qmul (tb : ℚ) op_ratio)
  { total_blocks := tb, pages_per_block := ppb, op_ratio := op_ratio,
    reserved_blocks_count := reserved,
    logical_blocks_count := (tb : Int) - reserved,
    blocks := (List.range tb).map (fun i => Block.init i ppb) }

/-- `NANDFlash.get_block(block_id)` (Python indexes `self.blocks`; in-range
everywhere it is called on well-formed states). -/
def NANDFlash.get_block (n : NANDFlash) (i : Nat) : Block := n.blocks.getD i (Block.init 0 0)

def NANDFlash.setBlock (n : NANDFlash) (i : Nat) (b : Block) : NANDFlash :=
  { n with blocks := n.blocks.set i b }

def NANDFlash.get_total_free_pages (n : NANDFlash) : Int :=
  (n.blocks.map (·.free_pages)).sum

def NANDFlash.get_total_valid_pages (n : NANDFlash) : Int :=
  (n.blocks.map (·.valid_pages)).sum

def NANDFlash.get_total_invalid_pages (n : NANDFlash) : Int :=
  (n.blocks.map (·.invalid_pages)).sum

def NANDFlash.get_erase_counts (n : NANDFlash) : List Nat :=
  n.blocks.map (·.erase_count)

/-! ### ftl.py : BaseFTL state, metrics, and the shared write path

The two strategies share all of `BaseFTL.write` and the shape of
`garbage_collect` (victim selection differs; migration and the final erase
are textually identical in both subclasses).  We therefore embed the shared
code once, parameterised by the strategy's `allocate_page` and victim
selection, and instantiate it twice.  `FTLState α` is the full object state:
the `BaseFTL` fields (`core`) plus the subclass's own fields (`st`).
The `l2p_map` dict is keyed by `Option Nat` because GC migration inserts
`page.logical_address` (an optional value) as a key. -/
structure Core where
  nand : NANDFlash
  l2p : Option Nat → Option (Nat × Nat)
  total_writes : Nat
  host_writes : Nat
  gc_count : Nat

structure FTLState (α : Type) where
  core : Core
  st : α

/-- `BaseFTL.get_waf()`. -/
def Core.get_waf (c : Core) : ℚ :=
  if c.host_writes = 0 then 1 else qdiv (c.total_writes : ℚ) (c.host_writes : ℚ)

/-- `BaseFTL.get_wear_variance()` : population variance of erase counts
(`x ** 2` written as `x * x`). -/
def Core.get_wear_variance (c : Core) : ℚ :=
  let ec := c.nand.get_erase_counts
  if ec = [] then 0
  else
    let mean : ℚ := qdiv (qsum (ec.map (fun x => Nat.cast x))) (Nat.cast ec.length)
    qdiv (qsum (ec.map (fun x => qmul (qsub (Nat.cast x) mean) (qsub (Nat.cast x) mean))))
      (Nat.cast ec.length)

def FTLState.modifyCore {α : Type} (s : FTLState α) (f : Core → Core) : FTLState α :=
  { s with core := f s.core }

def FTLState.blockAt {α : Type} (s : FTLState α) (i : Nat) : Block :=
  s.core.nand.get_block i

def FTLState.setBlockAt {α : Type} (s : FTLState α) (i : Nat) (b : Block) : FTLState α :=
  s.modifyCore (fun c => { c with nand := c.nand.setBlock i b })

/-- `self.nand.get_block(bi).invalidate_page(pi)`. -/
def FTLState.invalidateAt {α : Type} (s : FTLState α) (bi pi : Nat) : FTLState α :=
  s.setBlockAt bi ((s.blockAt bi).invalidate_page pi)

/-- `victim_block.erase()`, identifying the victim by its list position. -/
def FTLState.eraseAt {α : Type} (s : FTLState α) (bi : Nat) : FTLState α :=
  s.setBlockAt bi ((s.blockAt bi).erase)

/-- The shared "program one page" sequence used by both the write path and GC
migration: `write_page`; on success update `l2p_map` and `total_writes`.
Returns `(new state, success flag, physical index written)`. -/
def FTLState.tryProgram {α : Type} (s : FTLState α) (bi : Nat) (tag : Option Nat) :
    FTLState α × Bool × Nat :=
  let r := (s.blockAt bi).write_page tag
  let s1 := s.setBlockAt bi r.2.2
  if r.1 then
    (s1.modifyCore (fun c =>
      { c with l2p := fun k => if k = tag then some (bi, r.2.1) else c.l2p k,
               total_writes := c.total_writes + 1 }), true, r.2.1)
  else (s1, false, r.2.1)

/-- An `allocate_page` implementation: may read and update the whole state
(the Baseline one advances its cursor), returns `(block_id, page_index)` or
`none`. -/
abbrev Alloc (α : Type) := FTLState α → Option (Nat × Nat) × FTLState α

/-- The GC valid-page migration loop, shared verbatim by both subclasses:
`for page_index, page in enumerate(victim_block.pages)`.  Python iterates the
live list whose `Page` objects are mutated in place, so each step re-reads the
CURRENT state of the victim page (a page programmed into the victim during
this very loop is visited later).  `fuel` is the number of indices left
(`len(pages)` at loop entry, constant during the loop). -/
def genMigrate {α : Type} (alloc : Alloc α) (v : Nat) :
    Nat → Nat → FTLState α → FTLState α
  | 0, _, s => s
  | fuel + 1, i, s =>
    let p := (s.blockAt v).pages.getD i Page.fresh
    if p.state = .VALID then
      match alloc s with
      | (some bp, s1) => genMigrate alloc v fuel (i + 1) (s1.tryProgram bp.1 p.logical_address).1
      | (none, s1) => s1
    else genMigrate alloc v fuel (i + 1) s

/-- The shared shape of `garbage_collect`: bump `gc_count`, select a victim
(`none` encodes every early-`return` path), migrate its valid pages, erase it
unconditionally. -/
def genGC {α : Type} (select : FTLState α → Option Nat) (alloc : Alloc α)
    (s : FTLState α) : FTLState α :=
  let s1 := s.modifyCore (fun c => { c with gc_count := c.gc_count + 1 })
  match select s1 with
  | none => s1
  | some v => (genMigrate alloc v ((s1.blockAt v).pages.length) 0 s1).eraseAt v

/-- The proactive GC trigger condition of `BaseFTL.write` step 2, evaluated
after `host_writes` has been incremented. -/
def gcTrigger (c : Core) : Bool :=
  let min_free_blocks := c.nand.pages_per_block
  let dynamic_threshold : ℚ :=
    qsub (qadd (qsci 20 2) (qmul (qsci 5 2) c.get_waf)) (qmul (qsci 1 2) c.get_wear_variance)
  let global_invalid_ratio : ℚ :=
    qdiv (c.nand.get_total_invalid_pages : ℚ) ((c.nand.total_blocks * c.nand.pages_per_block : Nat) : ℚ)
  decide (c.nand.get_total_free_pages ≤ (min_free_blocks : Int)) ||
    decide (dynamic_threshold < global_invalid_ratio)

/-- The two exceptions `BaseFTL.write` can raise. -/
inductive WriteErr where
  | StorageExhausted
  | AllocFailed
deriving DecidableEq, Repr

/-- Write step 1–2: `host_writes += 1`, then GC if triggered. -/
def writeStep1 {α : Type} (gcf : FTLState α → FTLState α) (s : FTLState α) : FTLState α :=
  let s1 := s.modifyCore (fun c => { c with host_writes := c.host_writes + 1 })
  if gcTrigger s1.core then gcf s1 else s1

/-- Write step 3: invalidate the old physical page if the address is mapped. -/
def writeStep2 {α : Type} (s : FTLState α) (lba : Nat) : FTLState α :=
  match s.core.l2p (some lba) with
  | some bp => s.invalidateAt bp.1 bp.2
  | none => s

/-- Physical write + mapping update; a `write_page` failure is the
`"Allocation logic failed ..."` raise. -/
def finishWrite {α : Type} (s : FTLState α) (bi lba : Nat) : FTLState α × Option WriteErr :=
  let r := s.tryProgram bi (some lba)
  if r.2.1 then (r.1, none) else (r.1, some .AllocFailed)

/-- Write steps 4–6: allocate; on failure one forced GC pass and exactly one
retry; a second failure is the `StorageExhausted` raise. -/
def writeStep3 {α : Type} (alloc : Alloc α) (gcf : FTLState α → FTLState α)
    (s : FTLState α) (lba : Nat) : FTLState α × Option WriteErr :=
  match alloc s with
  | (some bp, s1) => finishWrite s1 bp.1 lba
  | (none, s1) =>
    let s2 := gcf s1
    match alloc s2 with
    | (some bp, s3) => finishWrite s3 bp.1 lba
    | (none, s3) => (s3, some .StorageExhausted)

/-- `BaseFTL.write(logical_address)`.  The returned state is the object state
when the call returns or raises (Python mutates `self` before raising). -/
def genWrite {α : Type} (alloc : Alloc α) (gcf : FTLState α → FTLState α)
    (s : FTLState α) (lba : Nat) : FTLState α × Option WriteErr :=
  writeStep3 alloc gcf (writeStep2 (writeStep1 gcf s) lba) lba

def Core.init (tb ppb : Nat) (op : ℚ) : Core :=
  { nand := NANDFlash.init tb ppb op, l2p := fun _ => none,
    total_writes := 0, host_writes := 0, gc_count := 0 }

/-! ### baseline_ftl.py : BaselineFTL

Subclass state is just `active_block_id`. -/
abbrev BaselineFTL := FTLState Nat

/-- The body of `BaselineFTL.allocate_page`'s `for _ in range(total_blocks)`
loop; the cursor advance is persistent (it mutates `self.active_block_id`). -/
def baselineAllocGo : Nat → BaselineFTL → Option (Nat × Nat) × BaselineFTL
  | 0, s => (none, s)
  | n + 1, s =>
    let block := s.blockAt s.st
    if 0 < block.free_pages then (some (s.st, block.next_free_page_index), s)
    else baselineAllocGo n { s with st := (s.st + 1) % s.core.nand.total_blocks }

/-- `BaselineFTL.allocate_page()`. -/
def baselineAlloc : Alloc Nat := fun s => baselineAllocGo s.core.nand.total_blocks s

/-- The victim-selection loop of `BaselineFTL.garbage_collect`: skip the
active block while it has free pages, keep the first block whose
`invalid_pages` strictly exceeds the running maximum (initially `-1`).
The victim is identified by its position in `self.nand.blocks`. -/
def baselineSelectGo (active : Nat) : Nat → List Block → Option Nat × Int → Option Nat × Int
  | _, [], acc => acc
  | i, b :: rest, acc =>
    if b.block_id = active ∧ 0 < b.free_pages then
      baselineSelectGo active (i + 1) rest acc
    else if acc.2 < b.invalid_pages then
      baselineSelectGo active (i + 1) rest (some i, b.invalid_pages)
    else baselineSelectGo active (i + 1) rest acc

/-- Victim selection including the `if not victim_block or max_invalid == 0:
return` early exit.  (The dead `dest_block_id` scan in the source computes a
value that is never used afterwards and is omitted.) -/
def baselineSelect (s : BaselineFTL) : Option Nat :=
  match baselineSelectGo s.st 0 s.core.nand.blocks (none, -1) with
  | (none, _) => none
  | (some v, maxInv) => if maxInv = 0 then none else some v

/-- `BaselineFTL.garbage_collect()`. -/
def baselineGC : BaselineFTL → BaselineFTL := genGC baselineSelect baselineAlloc

/-- `BaselineFTL.write(logical_address)` (inherited from `BaseFTL`). -/
def baselineWrite (s : BaselineFTL) (lba : Nat) : BaselineFTL × Option WriteErr :=
  genWrite baselineAlloc baselineGC s lba

/-- `BaselineFTL(NANDFlash(tb, ppb, op))`. -/
def baselineInit (tb ppb : Nat) (op : ℚ) : BaselineFTL :=
  { core := Core.init tb ppb op, st := 0 }

/-! ### adaptive_ftl.py : AdaptiveFTL -/
structure AdaptState where
  lba_access_count : Nat → Nat
  alpha : ℚ
  beta : ℚ
  gamma : ℚ
  moving_waf : ℚ
  moving_variance : ℚ
  target_waf : ℚ
  target_variance : ℚ

abbrev AdaptiveFTL := FTLState AdaptState

/-- `AdaptiveFTL.allocate_page()` : pure first-fit scan, returns
`block.block_id` (the field, not the position). -/
def adaptiveAllocGo : List Block → Option (Nat × Nat)
  | [] => none
  | b :: rest =>
    if 0 < b.free_pages then some (b.block_id, b.next_free_page_index)
    else adaptiveAllocGo rest

def adaptiveAlloc : Alloc AdaptState := fun s => (adaptiveAllocGo s.core.nand.blocks, s)

/-- `current_max_erase = max(erase_counts) if erase_counts and
max(erase_counts) > 0 else 1`. -/
def currentMaxErase (n : NANDFlash) : Nat :=
  let ec := n.get_erase_counts
  if ec ≠ [] ∧ 0 < ec.foldr max 0 then ec.foldr max 0 else 1

/-- The scoring model of `AdaptiveFTL.garbage_collect` for one block. -/
def blockScore (alpha gamma beta : ℚ) (maxErase : Nat) (b : Block) : ℚ :=
  let EfficiencyScore : ℚ := qdiv (b.invalid_pages : ℚ) (b.pages_per_block : ℚ)
  let MigrationCost : ℚ := qdiv (b.valid_pages : ℚ) (b.pages_per_block : ℚ)
  let WearScore : ℚ := qsub 1 (qdiv (b.erase_count : ℚ) (maxErase : ℚ))
  qadd (qsub (qmul alpha EfficiencyScore) (qmul gamma MigrationCost)) (qmul beta WearScore)

/-- The victim loop: skip blocks with `invalid_pages == 0`; keep the first
block whose score strictly exceeds the running best (initially `-inf`,
modelled as `none`).  Victims are identified by list position. -/
def adaptiveSelectGo (alpha gamma beta : ℚ) (maxErase : Nat) :
    Nat → List Block → Option (Nat × ℚ) → Option (Nat × ℚ)
  | _, [], best => best
  | i, b :: rest, best =>
    if b.invalid_pages = 0 then adaptiveSelectGo alpha gamma beta maxErase (i + 1) rest best
    else
      let score := blockScore alpha gamma beta maxErase b
      match best with
      | none => adaptiveSelectGo alpha gamma beta maxErase (i + 1) rest (some (i, score))
      | some hs =>
        if hs.2 < score then adaptiveSelectGo alpha gamma beta maxErase (i + 1) rest (some (i, score))
        else adaptiveSelectGo alpha gamma beta maxErase (i + 1) rest best

def adaptiveSelect (s : AdaptiveFTL) : Option Nat :=
  (adaptiveSelectGo s.st.alpha s.st.gamma s.st.beta (currentMaxErase s.core.nand)
    0 s.core.nand.blocks none).map (·.1)

/-- `AdaptiveFTL.garbage_collect()`. -/
def adaptiveGC : AdaptiveFTL → AdaptiveFTL := genGC adaptiveSelect adaptiveAlloc

/-- `AdaptiveFTL._adapt_weights()`.  The two standard-tuning `if`s execute
sequentially on the mutated fields; the stabilization override returns before
the clamp. -/
def adaptWeights (s : AdaptiveFTL) : AdaptiveFTL :=
  let current_waf := s.core.get_waf
  let current_variance := s.core.get_wear_variance
  let moving_waf := qadd (qmul (qsci 9 1) s.st.moving_waf) (qmul (qsci 1 1) current_waf)
  let moving_variance :=
    qadd (qmul (qsci 9 1) s.st.moving_variance) (qmul (qsci 1 1) current_variance)
  let st0 := { s.st with moving_waf := moving_waf, moving_variance := moving_variance }
  if (6 : ℚ) < moving_waf then
    { s with st := { st0 with alpha := qsci 15 1, gamma := qsci 15 1, beta := qsci 5 1 } }
  else
    let delta : ℚ := qsci 5 2
    let delta_small : ℚ := qsci 1 2
    let t1 : ℚ × ℚ × ℚ :=
      if st0.target_waf < moving_waf then
        (qadd st0.alpha delta, qsub st0.beta delta_small, qadd st0.gamma delta)
      else (st0.alpha, st0.beta, st0.gamma)
    let t2 : ℚ × ℚ :=
      if st0.target_variance < moving_variance then (qsub t1.1 delta_small, qadd t1.2.1 delta)
      else (t1.1, t1.2.1)
    { s with st := { st0 with
        alpha := max (qsci 1 1) (min t2.1 2),
        beta := max (qsci 1 1) (min t2.2 2),
        gamma := max (qsci 1 1) (min t1.2.2 2) } }

/-- `AdaptiveFTL.write(logical_address)` : bump the access count, run the
inherited write, and adapt weights every 1000 host writes (skipped when the
inherited write raises). -/
def adaptiveWrite (s : AdaptiveFTL) (lba : Nat) : AdaptiveFTL × Option WriteErr :=
  let s0 : AdaptiveFTL := { s with st := { s.st with
    lba_access_count := fun k =>
      if k = lba then s.st.lba_access_count lba + 1 else s.st.lba_access_count k } }
  let r := genWrite adaptiveAlloc adaptiveGC s0 lba
  match r.2 with
  | some e => (r.1, some e)
  | none =>
    (if r.1.core.host_writes % 1000 = 0 then adaptWeights r.1 else r.1, none)

/-- `AdaptiveFTL(NANDFlash(tb, ppb, op))`. -/
def adaptiveInit (tb ppb : Nat) (op : ℚ) : AdaptiveFTL :=
  { core := Core.init tb ppb op,
    st := { lba_access_count := fun _ => 0, alpha := 1, beta := 1, gamma := 1,
            moving_waf := 1, moving_variance := 0,
            target_waf := 4, target_variance := 20 } }

/-! ### Reachability -/

/-- States reachable by constructing an FTL on a fresh device and issuing any
sequence of `write` calls (also through calls that raised). -/
inductive Reach {α : Type} (I : FTLState α → Prop)
    (W : FTLState α → Nat → FTLState α × Option WriteErr) : FTLState α → Prop where
  | init (s : FTLState α) : I s → Reach I W s
  | step (s : FTLState α) (lba : Nat) : Reach I W s → Reach I W (W s lba).1

/-- Reachable through successful writes only: every `write` call so far
returned without raising. -/
inductive ReachOK {α : Type} (I : FTLState α → Prop)
    (W : FTLState α → Nat → FTLState α × Option WriteErr) : FTLState α → Prop where
  | init (s : FTLState α) : I s → ReachOK I W s
  | step (s : FTLState α) (lba : Nat) : ReachOK I W s → (W s lba).2 = none →
      ReachOK I W (W s lba).1

def BInit (s : BaselineFTL) : Prop := ∃ tb ppb op, s = baselineInit tb ppb op

def AInit (s : AdaptiveFTL) : Prop := ∃ tb ppb op, s = adaptiveInit tb ppb op

abbrev BReachable : BaselineFTL → Prop := Reach BInit baselineWrite

abbrev AReachable : AdaptiveFTL → Prop := Reach AInit adaptiveWrite

/-- Issue a list of writes, keeping the final state (raises included). -/
def runWrites {α : Type} (W : FTLState α → Nat → FTLState α × Option WriteErr)
    (s : FTLState α) (ls : List Nat) : FTLState α :=
  ls.foldl (fun s l => (W s l).1) s

/-- Number of VALID pages on the whole device tagged with `t`. -/
def Core.countValidTagged (c : Core) (t : Option Nat) : Nat :=
  (c.nand.blocks.map (fun b =>
    (b.pages.filter (fun p => p.state = .VALID ∧ p.logical_address = t)).length)).sum

/-- `true` iff every write in the list returns without raising. -/
def runOK {α : Type} (W : FTLState α → Nat → FTLState α × Option WriteErr) :
    FTLState α → List Nat → Bool
  | _, [] => true
  | s, l :: ls =>
    match W s l with
    | (s', none) => runOK W s' ls
    | (_, some _) => false

/-! ### Well-formedness of reachable states

`BlockWF` collects the structural facts about a block that the constructor
establishes and every block operation preserves: the `pages` list has the
declared length, the write cursor is in range and determines `free_pages`,
and every slot at or beyond the cursor is a fresh FREE page. -/
structure BlockWF (ppb : Nat) (b : Block) : Prop where
  ppb_eq : b.pages_per_block = ppb
  len_eq : b.pages.length = ppb
  cursor_le : b.next_free_page_index ≤ ppb
  free_eq : b.free_pages = (ppb : Int) - (b.next_free_page_index : Int)
  high_free : ∀ j, b.next_free_page_index ≤ j → j < ppb →
    b.pages.getD j Page.fresh = Page.fresh

/-- Device-level well-formedness plus the translation-table invariant
`InvMap`: every VALID page's tag maps back to exactly that physical
position.  (`InvMap` is temporarily broken inside a GC migration for old
copies sitting in the victim block and is restored by the final erase.) -/
structure CoreWF (c : Core) : Prop where
  nblocks : c.nand.blocks.length = c.nand.total_blocks
  ids : ∀ i, i < c.nand.blocks.length →
    (c.nand.blocks.getD i (Block.init 0 0)).block_id = i
  blockwf : ∀ i, i < c.nand.blocks.length →
    BlockWF c.nand.pages_per_block (c.nand.blocks.getD i (Block.init 0 0))

/-- The page at physical position `(bi, pi)` is VALID and tagged `t`. -/
def ValidTaggedAt (c : Core) (t : Option Nat) (bi pi : Nat) : Prop :=
  bi < c.nand.blocks.length ∧
  pi < (c.nand.blocks.getD bi (Block.init 0 0)).pages.length ∧
  (c.nand.blocks.getD bi (Block.init 0 0)).pages.getD pi Page.fresh = ⟨.VALID, t⟩

/-- Translation-table invariant: every VALID page's tag maps back to its own
physical position. -/
def InvMap (c : Core) : Prop :=
  ∀ t bi pi, ValidTaggedAt c t bi pi → c.l2p t = some (bi, pi)

/-- `InvMap` weakened inside a GC of victim `v`: superseded copies of
migrated pages may still sit (VALID) in the victim. -/
def InvMapExc (c : Core) (v : Nat) : Prop :=
  ∀ t bi pi, ValidTaggedAt c t bi pi → c.l2p t = some (bi, pi) ∨ bi = v

/-- Full invariant carried through the reachability induction. -/
def StateWF {α : Type} (s : FTLState α) : Prop :=
  CoreWF s.core ∧ InvMap s.core

/-- The GC-trigger condition of the write path, phrased with the ordinary
rational operations, evaluated on the state with `host_writes` already
incremented (step 1 of `write` precedes the trigger evaluation). -/
def TriggerCond {α : Type} (s : FTLState α) : Prop :=
  let c := (s.modifyCore (fun c => { c with host_writes := c.host_writes + 1 })).core
  c.nand.get_total_free_pages ≤ (c.nand.pages_per_block : Int) ∨
    (c.nand.get_total_invalid_pages : ℚ)
        / ((c.nand.total_blocks * c.nand.pages_per_block : Nat) : ℚ)
      > (0.20 : ℚ) + (0.05 : ℚ) * c.get_waf - (0.01 : ℚ) * c.get_wear_variance

/-! ### Claim C6 : adaptive victim selection -/

/-- Block `j` is considered by the adaptive victim loop (`invalid_pages == 0`
is skipped). -/
def Eligible (blocks : List Block) (j : Nat) : Prop :=
  (blocks.getD j (Block.init 0 0)).invalid_pages ≠ 0

instance (blocks : List Block) (j : Nat) : Decidable (Eligible blocks j) := by
  unfold Eligible
  infer_instance

/-- The loop invariant of the adaptive victim scan after the first `i` blocks
have been examined: `none` means no eligible block seen; `some (v, sc)` means
`v` is the first block among the first `i` attaining the maximal score `sc`. -/
def SelInv (a g bq : ℚ) (m : Nat) (blocks : List Block) (i : Nat) :
    Option (Nat × ℚ) → Prop
  | none => ∀ j, j < i → ¬ Eligible blocks j
  | some vs =>
      vs.1 < i ∧ Eligible blocks vs.1 ∧
      vs.2 = blockScore a g bq m (blocks.getD vs.1 (Block.init 0 0)) ∧
      (∀ j, j < i → Eligible blocks j →
        blockScore a g bq m (blocks.getD j (Block.init 0 0)) ≤ vs.2) ∧
      (∀ j, j < vs.1 → Eligible blocks j →
        blockScore a g bq m (blocks.getD j (Block.init 0 0)) < vs.2)

/-- The claim's scoring formula for block `j` of an Adaptive state, written
with the ordinary rational operations:
`α·(invalid/capacity) − γ·(valid/capacity) + β·(1 − erase_count/max_erase)`. -/
def specScore (s : AdaptiveFTL) (j : Nat) : ℚ :=
  let b := s.core.nand.blocks.getD j (Block.init 0 0)
  s.st.alpha * ((b.invalid_pages : ℚ) / (b.pages_per_block : ℚ))
    - s.st.gamma * ((b.valid_pages : ℚ) / (b.pages_per_block : ℚ))
    + s.st.beta * (1 - (b.erase_count : ℚ) / (currentMaxErase s.core.nand : ℚ))

/-- The three scoring weights lie in the interval `[0.1, 2.0]`. -/
def WeightsOK (st : AdaptState) : Prop :=
  ((0.1 : ℚ) ≤ st.alpha ∧ st.alpha ≤ 2) ∧
  ((0.1 : ℚ) ≤ st.beta ∧ st.beta ≤ 2) ∧
  ((0.1 : ℚ) ≤ st.gamma ∧ st.gamma ≤ 2)

/-! ### Claim C9 : free + valid + invalid = capacity -/

/-- The counter equation of claim C9 for one block. -/
def BlockSumOK (b : Block) : Prop :=
  b.free_pages + b.valid_pages + b.invalid_pages = (b.pages_per_block : Int)

/-- All blocks of the device satisfy the counter equation. -/
def AllSumOK {α : Type} (s : FTLState α) : Prop :=
  ∀ b ∈ s.core.nand.blocks, BlockSumOK b

/-- Loop invariant of the migration scan: every VALID page of the victim at
an index not yet visited is still correctly mapped. -/
def VictimHigh (c : Core) (v i : Nat) : Prop :=
  ∀ j t, i ≤ j → ValidTaggedAt c t v j → c.l2p t = some (v, j)

/-- No VALID page on the device is tagged `t`. -/
def NoValid (c : Core) (t : Option Nat) : Prop := ∀ b p, ¬ ValidTaggedAt c t b p

theorem qadd_eq (a b : ℚ) : qadd a b = a + b := (Rat.add_def' a b).symm

theorem qsub_eq (a b : ℚ) : qsub a b = a - b := (Rat.sub_def' a b).symm

theorem qmul_eq (a b : ℚ) : qmul a b = a * b := by
  rw [qmul, Rat.mul_def, Rat.normalize_eq_mkRat]

theorem qinv_eq (a : ℚ) : qinv a = a.inv := (Rat.inv_def a).symm

theorem qdiv_eq (a b : ℚ) : qdiv a b = a / b := by
  rw [qdiv, qmul_eq, qinv_eq, Rat.div_def]

theorem qsum_go (a : ℚ) (l : List ℚ) : l.foldl qadd a = a + l.sum := by
  induction l generalizing a with
  | nil => simp
  | cons x xs ih => simp [List.foldl_cons, qadd_eq, ih, add_assoc]

theorem qsum_eq (l : List ℚ) : qsum l = l.sum := by
  simp [qsum, qsum_go]

theorem qsci_eq (m e : Nat) : qsci m e = Rat.ofScientific m true e := by
  rw [qsci, Rat.ofScientific_true_def]

/-! ### Claim C3 : Scenario A -/

/-- **C3.** On a fresh 4-block × 4-page device, 16 writes to 16 distinct fresh
logical addresses all succeed and leave every physical page VALID, zero
INVALID pages, and WAF exactly 1.0; a 17th write to a fresh address invokes
garbage collection (here: once at the proactive trigger and once at the
allocation retry), reclaims nothing (every block is left exactly as it was),
and raises `StorageExhausted`.  Both for the Baseline and for the Adaptive
strategy. -/
theorem c3_scenario_a :
    (runOK baselineWrite (baselineInit 4 4 (qsci 1 1)) (List.range 16) = true ∧
      (runWrites baselineWrite (baselineInit 4 4 (qsci 1 1)) (List.range 16)).core.nand.blocks.all
        (fun b => b.pages.all (fun p => p.state = .VALID)) = true ∧
      (runWrites baselineWrite (baselineInit 4 4 (qsci 1 1))
        (List.range 16)).core.nand.get_total_invalid_pages = 0 ∧
      (runWrites baselineWrite (baselineInit 4 4 (qsci 1 1)) (List.range 16)).core.get_waf = 1 ∧
      (baselineWrite (runWrites baselineWrite (baselineInit 4 4 (qsci 1 1)) (List.range 16)) 16).2
        = some .StorageExhausted ∧
      (baselineWrite (runWrites baselineWrite (baselineInit 4 4 (qsci 1 1))
          (List.range 16)) 16).1.core.gc_count
        = (runWrites baselineWrite (baselineInit 4 4 (qsci 1 1)) (List.range 16)).core.gc_count
            + 2 ∧
      (baselineWrite (runWrites baselineWrite (baselineInit 4 4 (qsci 1 1))
          (List.range 16)) 16).1.core.nand.blocks
        = (runWrites baselineWrite (baselineInit 4 4 (qsci 1 1)) (List.range 16)).core.nand.blocks)
    ∧
    (runOK adaptiveWrite (adaptiveInit 4 4 (qsci 1 1)) (List.range 16) = true ∧
      (runWrites adaptiveWrite (adaptiveInit 4 4 (qsci 1 1)) (List.range 16)).core.nand.blocks.all
        (fun b => b.pages.all (fun p => p.state = .VALID)) = true ∧
      (runWrites adaptiveWrite (adaptiveInit 4 4 (qsci 1 1))
        (List.range 16)).core.nand.get_total_invalid_pages = 0 ∧
      (runWrites adaptiveWrite (adaptiveInit 4 4 (qsci 1 1)) (List.range 16)).core.get_waf = 1 ∧
      (adaptiveWrite (runWrites adaptiveWrite (adaptiveInit 4 4 (qsci 1 1)) (List.range 16)) 16).2
        = some .StorageExhausted ∧
      (adaptiveWrite (runWrites adaptiveWrite (adaptiveInit 4 4 (qsci 1 1))
          (List.range 16)) 16).1.core.gc_count
        = (runWrites adaptiveWrite (adaptiveInit 4 4 (qsci 1 1)) (List.range 16)).core.gc_count
            + 2 ∧
      (adaptiveWrite (runWrites adaptiveWrite (adaptiveInit 4 4 (qsci 1 1))
          (List.range 16)) 16).1.core.nand.blocks
        = (runWrites adaptiveWrite (adaptiveInit 4 4 (qsci 1 1)) (List.range 16)).core.nand.blocks) := by
  decide

/-! ### Counterexamples to C1 and C2 -/
theorem reach_runWrites {α : Type} {I : FTLState α → Prop}
    {W : FTLState α → Nat → FTLState α × Option WriteErr} {s : FTLState α}
    (h : Reach I W s) (ls : List Nat) : Reach I W (runWrites W s ls) := by
  induction ls generalizing s with
  | nil => exact h
  | cons l ls ih => exact ih (Reach.step s l h)

theorem reach_init_baseline (tb ppb : Nat) (op : ℚ) : BReachable (baselineInit tb ppb op) :=
  Reach.init _ ⟨tb, ppb, op, rfl⟩

theorem reach_init_adaptive (tb ppb : Nat) (op : ℚ) : AReachable (adaptiveInit tb ppb op) :=
  Reach.init _ ⟨tb, ppb, op, rfl⟩

/-- **C1, counterexample.**  On a fresh 2-block × 2-page Adaptive device, the
write sequence 0, 1, 2, 0, 3 reaches a state (the fifth write triggers GC,
whose victim still holds the only VALID copy of address 1; migration stops
because no block has a free page, and the victim is erased anyway) in which
address 1 is present in `l2p_map` yet **zero** pages on the device are VALID
and tagged with it — refuting "exactly one". -/
theorem c1_counterexample :
    AReachable (runWrites adaptiveWrite (adaptiveInit 2 2 (qsci 1 1)) [0, 1, 2, 0, 3]) ∧
    (runWrites adaptiveWrite (adaptiveInit 2 2 (qsci 1 1)) [0, 1, 2, 0, 3]).core.l2p (some 1)
      = some (0, 1) ∧
    (runWrites adaptiveWrite (adaptiveInit 2 2 (qsci 1 1)) [0, 1, 2, 0, 3]).core.countValidTagged
      (some 1) = 0 :=
  ⟨reach_runWrites (reach_init_adaptive 2 2 (qsci 1 1)) _, by decide, by decide⟩

/-- **C2, counterexample.**  On a fresh 1-block × 1-page Baseline device, the
second write (to a new address with the device full and nothing reclaimable)
raises `StorageExhausted` after incrementing `host_writes` but not
`total_writes`; the reached state has `host_writes = 2 > 0` and
`get_waf() = 1/2 < 1.0`. -/
theorem c2_counterexample :
    BReachable (runWrites baselineWrite (baselineInit 1 1 (qsci 1 1)) [0, 1]) ∧
    (baselineWrite (runWrites baselineWrite (baselineInit 1 1 (qsci 1 1)) [0]) 1).2
      = some .StorageExhausted ∧
    0 < (runWrites baselineWrite (baselineInit 1 1 (qsci 1 1)) [0, 1]).core.host_writes ∧
    (runWrites baselineWrite (baselineInit 1 1 (qsci 1 1)) [0, 1]).core.get_waf < 1 :=
  ⟨reach_runWrites (reach_init_baseline 1 1 (qsci 1 1)) _, by decide, by decide, by decide⟩

/-! ### Frame lemmas for garbage_collect -/
theorem tryProgram_core_gc_count {α : Type} (s : FTLState α) (bi : Nat) (tag : Option Nat) :
    ((s.tryProgram bi tag).1).core.gc_count = s.core.gc_count := by
  simp only [FTLState.tryProgram, FTLState.setBlockAt, FTLState.modifyCore]
  split <;> rfl

theorem tryProgram_core_host {α : Type} (s : FTLState α) (bi : Nat) (tag : Option Nat) :
    ((s.tryProgram bi tag).1).core.host_writes = s.core.host_writes := by
  simp only [FTLState.tryProgram, FTLState.setBlockAt, FTLState.modifyCore]
  split <;> rfl

theorem genMigrate_core_gc_count {α : Type} {alloc : Alloc α}
    (halloc : ∀ s : FTLState α, ((alloc s).2).core.gc_count = s.core.gc_count) (v : Nat) :
    ∀ (fuel i : Nat) (s : FTLState α),
      (genMigrate alloc v fuel i s).core.gc_count = s.core.gc_count := by
  intro fuel
  induction fuel with
  | zero => intro i s; rfl
  | succ n ih =>
    intro i s
    simp only [genMigrate]
    split
    · split
      · rename_i bp s1 heq
        rw [ih, tryProgram_core_gc_count]
        have h2 := halloc s
        rw [heq] at h2
        exact h2
      · rename_i s1 heq
        have h2 := halloc s
        rw [heq] at h2
        exact h2
    · exact ih _ s

theorem genGC_core_gc_count {α : Type} {select : FTLState α → Option Nat} {alloc : Alloc α}
    (halloc : ∀ s : FTLState α, ((alloc s).2).core.gc_count = s.core.gc_count)
    (s : FTLState α) :
    (genGC select alloc s).core.gc_count = s.core.gc_count + 1 := by
  simp only [genGC]
  split
  · rfl
  · rw [FTLState.eraseAt, FTLState.setBlockAt, FTLState.modifyCore]
    exact genMigrate_core_gc_count halloc _ _ _ _

theorem baselineAllocGo_st_core : ∀ (n : Nat) (s : BaselineFTL),
    ((baselineAllocGo n s).2).core = s.core := by
  intro n
  induction n with
  | zero => intro s; rfl
  | succ m ih =>
    intro s
    simp only [baselineAllocGo]
    split
    · rfl
    · exact ih _

theorem baselineAlloc_core (s : BaselineFTL) : ((baselineAlloc s).2).core = s.core :=
  baselineAllocGo_st_core _ s

theorem adaptiveAlloc_core (s : AdaptiveFTL) : ((adaptiveAlloc s).2).core = s.core := rfl

theorem baselineGC_gc_count (s : BaselineFTL) :
    (baselineGC s).core.gc_count = s.core.gc_count + 1 :=
  genGC_core_gc_count (fun s => by rw [baselineAlloc_core]) s

theorem adaptiveGC_gc_count (s : AdaptiveFTL) :
    (adaptiveGC s).core.gc_count = s.core.gc_count + 1 :=
  genGC_core_gc_count (fun _ => rfl) s

theorem baselineSelectGo_none (active : Nat) :
    ∀ (l : List Block) (i : Nat) (acc : Option Nat × Int),
      (∀ b ∈ l, ¬(b.block_id = active ∧ 0 < b.free_pages) → b.invalid_pages = 0) →
      (acc = (none, -1) ∨ ∃ v, acc = (some v, 0)) →
      (baselineSelectGo active i l acc = (none, -1) ∨
        ∃ v, baselineSelectGo active i l acc = (some v, 0)) := by
  intro l
  induction l with
  | nil => intro i acc _ hacc; exact hacc
  | cons b rest ih =>
    intro i acc hl hacc
    simp only [baselineSelectGo]
    by_cases hskip : b.block_id = active ∧ 0 < b.free_pages
    · rw [if_pos hskip]
      exact ih _ _ (fun x hx => hl x (List.mem_cons_of_mem b hx)) hacc
    · rw [if_neg hskip]
      have hinv : b.invalid_pages = 0 := hl b (List.mem_cons_self b rest) hskip
      rcases hacc with h | ⟨v, h⟩
      · rw [h]
        have : (-1 : Int) < b.invalid_pages := by rw [hinv]; decide
        rw [if_pos this]
        exact ih _ _ (fun x hx => hl x (List.mem_cons_of_mem b hx)) (Or.inr ⟨i, by rw [hinv]⟩)
      · rw [h]
        have : ¬((0 : Int) < b.invalid_pages) := by rw [hinv]; decide
        rw [if_neg this]
        exact ih _ _ (fun x hx => hl x (List.mem_cons_of_mem b hx)) (Or.inr ⟨v, rfl⟩)

theorem baselineSelect_none (s : BaselineFTL)
    (h : ∀ b ∈ s.core.nand.blocks, ¬(b.block_id = s.st ∧ 0 < b.free_pages) →
      b.invalid_pages = 0) :
    baselineSelect s = none := by
  unfold baselineSelect
  rcases baselineSelectGo_none s.st s.core.nand.blocks 0 (none, -1) h (Or.inl rfl) with
    hres | ⟨v, hres⟩
  · rw [hres]
  · rw [hres]
    simp

theorem adaptiveSelectGo_none (a g bq : ℚ) (m : Nat) :
    ∀ (l : List Block) (i : Nat), (∀ b ∈ l, b.invalid_pages = 0) →
      adaptiveSelectGo a g bq m i l none = none := by
  intro l
  induction l with
  | nil => intro i _; rfl
  | cons b rest ih =>
    intro i hl
    simp only [adaptiveSelectGo]
    rw [if_pos (hl b (List.mem_cons_self b rest))]
    exact ih _ (fun x hx => hl x (List.mem_cons_of_mem b hx))

theorem adaptiveSelect_none (s : AdaptiveFTL) (h : ∀ b ∈ s.core.nand.blocks, b.invalid_pages = 0) :
    adaptiveSelect s = none := by
  unfold adaptiveSelect
  rw [adaptiveSelectGo_none _ _ _ _ _ _ h]
  rfl

theorem genGC_noop {α : Type} {select : FTLState α → Option Nat} {alloc : Alloc α}
    (s : FTLState α)
    (h : select (s.modifyCore (fun c => { c with gc_count := c.gc_count + 1 })) = none) :
    genGC select alloc s = s.modifyCore (fun c => { c with gc_count := c.gc_count + 1 }) := by
  simp only [genGC]
  rw [h]

/-! ### Claim C10 : gc_count framing -/

/-- **C10.**  Every `garbage_collect` call, on either strategy, increments
`gc_count` by exactly 1, even when it reclaims nothing; and in the no-op case
(no block carries invalid pages — for the Baseline strategy, no block other
than a skipped active block with free space) the `gc_count` bump is the only
change: the resulting object state equals the input with only `gc_count`
incremented. -/
theorem c10_gc_frame :
    (∀ s : BaselineFTL, (baselineGC s).core.gc_count = s.core.gc_count + 1) ∧
    (∀ s : AdaptiveFTL, (adaptiveGC s).core.gc_count = s.core.gc_count + 1) ∧
    (∀ s : BaselineFTL,
      (∀ b ∈ s.core.nand.blocks, ¬(b.block_id = s.st ∧ 0 < b.free_pages) →
        b.invalid_pages = 0) →
      baselineGC s = s.modifyCore (fun c => { c with gc_count := c.gc_count + 1 })) ∧
    (∀ s : AdaptiveFTL, (∀ b ∈ s.core.nand.blocks, b.invalid_pages = 0) →
      adaptiveGC s = s.modifyCore (fun c => { c with gc_count := c.gc_count + 1 })) := by
  refine ⟨baselineGC_gc_count, adaptiveGC_gc_count, ?_, ?_⟩
  · intro s h
    exact genGC_noop s (baselineSelect_none _ h)
  · intro s h
    exact genGC_noop s (adaptiveSelect_none _ h)

/-- Witness for C10 at concrete states: a fresh 2 × 2 device under each
strategy (no block has invalid pages, so GC is a pure `gc_count` bump). -/
theorem c10_gc_frame_witness :
    baselineGC (baselineInit 2 2 (qsci 1 1))
      = (baselineInit 2 2 (qsci 1 1)).modifyCore
          (fun c => { c with gc_count := c.gc_count + 1 }) ∧
    adaptiveGC (adaptiveInit 2 2 (qsci 1 1))
      = (adaptiveInit 2 2 (qsci 1 1)).modifyCore
          (fun c => { c with gc_count := c.gc_count + 1 }) :=
  ⟨c10_gc_frame.2.2.1 _ (by decide), c10_gc_frame.2.2.2 _ (by decide)⟩

/-! ### Claim C5 : the proactive GC trigger -/
theorem gcTrigger_iff (c : Core) :
    gcTrigger c = true ↔
      (c.nand.get_total_free_pages ≤ (c.nand.pages_per_block : Int) ∨
        (c.nand.get_total_invalid_pages : ℚ)
            / ((c.nand.total_blocks * c.nand.pages_per_block : Nat) : ℚ)
          > (0.20 : ℚ) + (0.05 : ℚ) * c.get_waf - (0.01 : ℚ) * c.get_wear_variance) := by
  have h20 : qsci 20 2 = (0.20 : ℚ) := qsci_eq 20 2
  have h5 : qsci 5 2 = (0.05 : ℚ) := qsci_eq 5 2
  have h1 : qsci 1 2 = (0.01 : ℚ) := qsci_eq 1 2
  simp only [gcTrigger, Bool.or_eq_true, decide_eq_true_eq, qsub_eq, qadd_eq, qmul_eq, qdiv_eq,
    h20, h5, h1]

theorem writeStep1_cases {α : Type} (gcf : FTLState α → FTLState α) (s : FTLState α) :
    (TriggerCond s ∧ writeStep1 gcf s
        = gcf (s.modifyCore (fun c => { c with host_writes := c.host_writes + 1 }))) ∨
    (¬ TriggerCond s ∧ writeStep1 gcf s
        = s.modifyCore (fun c => { c with host_writes := c.host_writes + 1 })) := by
  by_cases hb : gcTrigger
      ((s.modifyCore (fun c => { c with host_writes := c.host_writes + 1 })).core) = true
  · exact Or.inl ⟨(gcTrigger_iff _).mp hb, by simp [writeStep1, hb]⟩
  · refine Or.inr ⟨fun hc => hb ((gcTrigger_iff _).mpr hc), ?_⟩
    rw [Bool.not_eq_true] at hb
    simp [writeStep1, hb]

/-- **C5.**  On either strategy, a `write` call runs garbage collection in
its trigger phase — after `host_writes` is incremented and before the old
page is invalidated and before allocation: the write path is definitionally
the composition of the three phases — if and only if the device's total free
pages are ≤ pages-per-block, or the global invalid ratio (total invalid
pages ÷ total physical pages) strictly exceeds the dynamic threshold
`0.20 + 0.05·WAF − 0.01·wear_variance` computed from the current metrics;
the threshold is used unclamped.  GC having run is observed as `gc_count`
increasing by exactly one in the trigger phase.  The capacity hypothesis
`0 < total_blocks · pages_per_block` marks where the Python code would
instead raise `ZeroDivisionError` computing the ratio. -/
theorem c5_gc_trigger :
    (∀ s : BaselineFTL, 0 < s.core.nand.total_blocks * s.core.nand.pages_per_block →
      (((writeStep1 baselineGC s).core.gc_count = s.core.gc_count + 1) ↔ TriggerCond s) ∧
      (∀ lba, baselineWrite s lba
        = writeStep3 baselineAlloc baselineGC (writeStep2 (writeStep1 baselineGC s) lba) lba)) ∧
    (∀ s : AdaptiveFTL, 0 < s.core.nand.total_blocks * s.core.nand.pages_per_block →
      (((writeStep1 adaptiveGC s).core.gc_count = s.core.gc_count + 1) ↔ TriggerCond s) ∧
      (∀ lba, genWrite adaptiveAlloc adaptiveGC s lba
        = writeStep3 adaptiveAlloc adaptiveGC (writeStep2 (writeStep1 adaptiveGC s) lba) lba)) := by
  constructor
  · intro s _
    refine ⟨?_, fun _ => rfl⟩
    rcases writeStep1_cases baselineGC s with ⟨hc, hw⟩ | ⟨hc, hw⟩
    · rw [hw, baselineGC_gc_count]
      exact ⟨fun _ => hc, fun _ => rfl⟩
    · rw [hw]
      have hcnt : (s.modifyCore
          (fun c => { c with host_writes := c.host_writes + 1 })).core.gc_count
            = s.core.gc_count := rfl
      rw [hcnt]
      exact ⟨fun h => absurd h (by omega), fun h => absurd h hc⟩
  · intro s _
    refine ⟨?_, fun _ => rfl⟩
    rcases writeStep1_cases adaptiveGC s with ⟨hc, hw⟩ | ⟨hc, hw⟩
    · rw [hw, adaptiveGC_gc_count]
      exact ⟨fun _ => hc, fun _ => rfl⟩
    · rw [hw]
      have hcnt : (s.modifyCore
          (fun c => { c with host_writes := c.host_writes + 1 })).core.gc_count
            = s.core.gc_count := rfl
      rw [hcnt]
      exact ⟨fun h => absurd h (by omega), fun h => absurd h hc⟩

/-- Witness for C5: on a fresh 1 × 1 device (either strategy), free pages ≤
pages-per-block, so the trigger phase of the very first write runs GC. -/
theorem c5_gc_trigger_witness :
    (writeStep1 baselineGC (baselineInit 1 1 (qsci 1 1))).core.gc_count
        = (baselineInit 1 1 (qsci 1 1)).core.gc_count + 1 ∧
    (writeStep1 adaptiveGC (adaptiveInit 1 1 (qsci 1 1))).core.gc_count
        = (adaptiveInit 1 1 (qsci 1 1)).core.gc_count + 1 :=
  ⟨((c5_gc_trigger.1 (baselineInit 1 1 (qsci 1 1)) (by decide)).1).mpr (Or.inl (by decide)),
    ((c5_gc_trigger.2 (adaptiveInit 1 1 (qsci 1 1)) (by decide)).1).mpr (Or.inl (by decide))⟩

set_option maxHeartbeats 2000000 in
theorem adaptiveSelectGo_spec (a g bq : ℚ) (m : Nat) (blocks : List Block) :
    ∀ (l : List Block) (i : Nat) (best : Option (Nat × ℚ)),
      (∀ k, k < l.length → l.getD k (Block.init 0 0) = blocks.getD (i + k) (Block.init 0 0)) →
      i + l.length = blocks.length →
      SelInv a g bq m blocks i best →
      SelInv a g bq m blocks blocks.length (adaptiveSelectGo a g bq m i l best) := by
  intro l
  induction l with
  | nil =>
    intro i best _ hlen hinv
    simpa [adaptiveSelectGo, ← hlen] using hinv
  | cons b rest ih =>
    intro i best hl hlen hinv
    have hb : b = blocks.getD i (Block.init 0 0) := by
      have := hl 0 (by simp)
      simpa using this
    have hrest : ∀ k, k < rest.length →
        rest.getD k (Block.init 0 0) = blocks.getD (i + 1 + k) (Block.init 0 0) := by
      intro k hk
      have := hl (k + 1) (by simp; omega)
      simpa [Nat.add_assoc, Nat.add_comm 1 k] using this
    have hlen' : i + 1 + rest.length = blocks.length := by
      simp at hlen; omega
    have hnelig : b.invalid_pages = 0 → ¬ Eligible blocks i := by
      intro hz
      rw [Eligible, ← hb]
      exact fun hne => hne hz
    have helig : b.invalid_pages ≠ 0 → Eligible blocks i := by
      intro hz
      rw [Eligible, ← hb]
      exact hz
    cases best with
    | none =>
      simp only [adaptiveSelectGo]
      by_cases hz : b.invalid_pages = 0
      · rw [if_pos hz]
        refine ih (i + 1) none hrest hlen' ?_
        intro j hj
        rcases Nat.lt_succ_iff_lt_or_eq.mp hj with h | h
        · exact hinv j h
        · rw [h]; exact hnelig hz
      · rw [if_neg hz]
        refine ih (i + 1) _ hrest hlen' ?_
        refine ⟨Nat.lt_succ_self i, helig hz, by rw [hb], ?_, ?_⟩
        · intro j hj hej
          rcases Nat.lt_succ_iff_lt_or_eq.mp hj with h | h
          · exact absurd hej (hinv j h)
          · rw [h, ← hb]
        · intro j hj hej
          exact absurd hej (hinv j hj)
    | some vs =>
      obtain ⟨h1, h2, h3, h4, h5⟩ := hinv
      simp only [adaptiveSelectGo]
      by_cases hz : b.invalid_pages = 0
      · rw [if_pos hz]
        refine ih (i + 1) _ hrest hlen' ?_
        refine ⟨Nat.lt_succ_of_lt h1, h2, h3, ?_, h5⟩
        intro j hj hej
        rcases Nat.lt_succ_iff_lt_or_eq.mp hj with h | h
        · exact h4 j h hej
        · rw [h] at hej; exact absurd hej (hnelig hz)
      · rw [if_neg hz]
        by_cases hlt : vs.2 < blockScore a g bq m b
        · rw [if_pos hlt]
          refine ih (i + 1) _ hrest hlen' ?_
          refine ⟨Nat.lt_succ_self i, helig hz, by rw [hb], ?_, ?_⟩
          · intro j hj hej
            rcases Nat.lt_succ_iff_lt_or_eq.mp hj with h | h
            · exact le_of_lt (lt_of_le_of_lt (h4 j h hej) hlt)
            · rw [h, ← hb]
          · intro j hj hej
            exact lt_of_le_of_lt (h4 j hj hej) hlt
        · rw [if_neg hlt]
          refine ih (i + 1) _ hrest hlen' ?_
          refine ⟨Nat.lt_succ_of_lt h1, h2, h3, ?_, h5⟩
          intro j hj hej
          rcases Nat.lt_succ_iff_lt_or_eq.mp hj with h | h
          · exact h4 j h hej
          · rw [h, ← hb]
            exact le_of_not_lt hlt

theorem specScore_eq (s : AdaptiveFTL) (j : Nat) :
    specScore s j = blockScore s.st.alpha s.st.gamma s.st.beta (currentMaxErase s.core.nand)
      (s.core.nand.blocks.getD j (Block.init 0 0)) := by
  simp [specScore, blockScore, qadd_eq, qsub_eq, qmul_eq, qdiv_eq]

theorem currentMaxErase_eq (n : NANDFlash) :
    currentMaxErase n = max 1 (n.get_erase_counts.foldr max 0) := by
  unfold currentMaxErase
  by_cases h : n.get_erase_counts ≠ [] ∧ 0 < n.get_erase_counts.foldr max 0
  · rw [if_pos h]
    omega
  · rw [if_neg h]
    rcases Decidable.not_and_iff_or_not.mp h with h1 | h2
    · have : n.get_erase_counts = [] := not_not.mp h1
      rw [this]
      simp [List.foldr_nil]
    · have : n.get_erase_counts.foldr max 0 = 0 := by omega
      rw [this]
      omega

theorem eligible_iff_mem (blocks : List Block) :
    (∀ j, j < blocks.length → ¬ Eligible blocks j) ↔
      (∀ b ∈ blocks, b.invalid_pages = 0) := by
  constructor
  · intro h b hb
    rcases List.mem_iff_get.mp hb with ⟨⟨i, hi⟩, hget⟩
    have := h i hi
    rw [Eligible] at this
    rw [List.getD_eq_getElem _ _ hi] at this
    simp only [List.get_eq_getElem] at hget
    rw [hget] at this
    exact not_not.mp this
  · intro h j hj
    rw [Eligible, List.getD_eq_getElem _ _ hj]
    exact not_not.mpr (h _ (List.getElem_mem hj))

theorem adaptiveSelect_spec (s : AdaptiveFTL) :
    SelInv s.st.alpha s.st.gamma s.st.beta (currentMaxErase s.core.nand)
      s.core.nand.blocks s.core.nand.blocks.length
      (adaptiveSelectGo s.st.alpha s.st.gamma s.st.beta (currentMaxErase s.core.nand)
        0 s.core.nand.blocks none) := by
  refine adaptiveSelectGo_spec _ _ _ _ _ s.core.nand.blocks 0 none ?_ (by simp) ?_
  · intro k hk
    rw [Nat.zero_add]
  · intro j hj
    exact absurd hj (Nat.not_lt_zero j)

/-- **C6.**  For every Adaptive state (hence for every weight triple held in
it) the victim scan returns the block maximising
`α·(invalid/capacity) − γ·(valid/capacity) + β·(1 − erase/max_erase)` with
`max_erase` the maximum erase count over all blocks floored at 1; blocks with
zero invalid pages are excluded; ties are broken in favour of the
first-encountered block in index order (every earlier eligible block scores
strictly lower); no victim is selected iff no block is eligible, and then
`garbage_collect` changes no block or mapping state (only `gc_count`). -/
theorem c6_victim_selection :
    (∀ s : AdaptiveFTL, ∀ v, adaptiveSelect s = some v →
      v < s.core.nand.blocks.length ∧ Eligible s.core.nand.blocks v ∧
      (∀ j, j < s.core.nand.blocks.length → Eligible s.core.nand.blocks j →
        specScore s j ≤ specScore s v) ∧
      (∀ j, j < v → Eligible s.core.nand.blocks j → specScore s j < specScore s v)) ∧
    (∀ s : AdaptiveFTL, adaptiveSelect s = none ↔
      (∀ j, j < s.core.nand.blocks.length → ¬ Eligible s.core.nand.blocks j)) ∧
    (∀ s : AdaptiveFTL, (∀ j, j < s.core.nand.blocks.length → ¬ Eligible s.core.nand.blocks j) →
      adaptiveGC s = s.modifyCore (fun c => { c with gc_count := c.gc_count + 1 })) ∧
    (∀ n : NANDFlash, currentMaxErase n = max 1 (n.get_erase_counts.foldr max 0)) := by
  refine ⟨?_, ?_, ?_, currentMaxErase_eq⟩
  · intro s v hv
    have hspec := adaptiveSelect_spec s
    rw [adaptiveSelect] at hv
    rcases hgo : adaptiveSelectGo s.st.alpha s.st.gamma s.st.beta (currentMaxErase s.core.nand)
        0 s.core.nand.blocks none with _ | vs
    · rw [hgo] at hv
      exact absurd hv (by simp)
    · rw [hgo] at hv hspec
      obtain ⟨h1, h2, h3, h4, h5⟩ := hspec
      have hv1 : vs.1 = v := by simpa using hv
      refine ⟨hv1 ▸ h1, hv1 ▸ h2, ?_, ?_⟩
      · intro j hj hej
        rw [specScore_eq, specScore_eq, ← hv1, ← h3]
        exact h4 j hj hej
      · intro j hj hej
        rw [← hv1] at hj
        rw [specScore_eq, specScore_eq, ← hv1, ← h3]
        exact h5 j hj hej
  · intro s
    constructor
    · intro hn
      have hspec := adaptiveSelect_spec s
      rw [adaptiveSelect] at hn
      rcases hgo : adaptiveSelectGo s.st.alpha s.st.gamma s.st.beta (currentMaxErase s.core.nand)
          0 s.core.nand.blocks none with _ | vs
      · rw [hgo] at hspec
        exact hspec
      · rw [hgo] at hn
        exact absurd hn (by simp)
    · intro h
      rw [adaptiveSelect, adaptiveSelectGo_none _ _ _ _ _ _ ((eligible_iff_mem _).mp h)]
      rfl
  · intro s h
    exact genGC_noop s (adaptiveSelect_none _ ((eligible_iff_mem _).mp h))

/-- Witness for C6 at a concrete state: after writes 0,1,2,0 on a fresh
2 × 2 Adaptive device, block 0 holds an invalid page and is selected; and on
the fresh device itself no block is eligible and GC is a pure `gc_count`
bump. -/
theorem c6_victim_selection_witness :
    (adaptiveSelect (runWrites adaptiveWrite (adaptiveInit 2 2 (qsci 1 1)) [0, 1, 2, 0])
      = some 0) ∧
    Eligible (runWrites adaptiveWrite (adaptiveInit 2 2 (qsci 1 1)) [0, 1, 2, 0]).core.nand.blocks
      0 ∧
    (∀ j, j < (runWrites adaptiveWrite (adaptiveInit 2 2 (qsci 1 1))
        [0, 1, 2, 0]).core.nand.blocks.length →
      Eligible (runWrites adaptiveWrite (adaptiveInit 2 2 (qsci 1 1))
        [0, 1, 2, 0]).core.nand.blocks j →
      specScore (runWrites adaptiveWrite (adaptiveInit 2 2 (qsci 1 1)) [0, 1, 2, 0]) j
        ≤ specScore (runWrites adaptiveWrite (adaptiveInit 2 2 (qsci 1 1)) [0, 1, 2, 0]) 0) ∧
    adaptiveGC (adaptiveInit 2 2 (qsci 1 1))
      = (adaptiveInit 2 2 (qsci 1 1)).modifyCore
          (fun c => { c with gc_count := c.gc_count + 1 }) := by
  refine ⟨by decide, ?_, ?_, ?_⟩
  · exact (c6_victim_selection.1 _ 0 (by decide)).2.1
  · exact (c6_victim_selection.1 _ 0 (by decide)).2.2.1
  · exact c6_victim_selection.2.2.1 _ (by decide)

/-! ### Claim C7 : adaptive weight bounds -/
theorem tryProgram_st {α : Type} (s : FTLState α) (bi : Nat) (tag : Option Nat) :
    ((s.tryProgram bi tag).1).st = s.st := by
  simp only [FTLState.tryProgram, FTLState.setBlockAt, FTLState.modifyCore]
  split <;> rfl

theorem genMigrate_st {α : Type} {alloc : Alloc α}
    (halloc : ∀ s : FTLState α, ((alloc s).2).st = s.st) (v : Nat) :
    ∀ (fuel i : Nat) (s : FTLState α), (genMigrate alloc v fuel i s).st = s.st := by
  intro fuel
  induction fuel with
  | zero => intro i s; rfl
  | succ n ih =>
    intro i s
    simp only [genMigrate]
    split
    · split
      · rename_i bp s1 heq
        rw [ih, tryProgram_st]
        have h2 := halloc s
        rw [heq] at h2
        exact h2
      · rename_i s1 heq
        have h2 := halloc s
        rw [heq] at h2
        exact h2
    · exact ih _ s

theorem genGC_st {α : Type} {select : FTLState α → Option Nat} {alloc : Alloc α}
    (halloc : ∀ s : FTLState α, ((alloc s).2).st = s.st) (s : FTLState α) :
    (genGC select alloc s).st = s.st := by
  simp only [genGC]
  split
  · rfl
  · rw [FTLState.eraseAt, FTLState.setBlockAt, FTLState.modifyCore]
    exact genMigrate_st halloc _ _ _ _

theorem genWrite_st {α : Type} {alloc : Alloc α} {gcf : FTLState α → FTLState α}
    (halloc : ∀ s : FTLState α, ((alloc s).2).st = s.st)
    (hgcf : ∀ s : FTLState α, (gcf s).st = s.st) (s : FTLState α) (lba : Nat) :
    ((genWrite alloc gcf s lba).1).st = s.st := by
  have hstep1 : (writeStep1 gcf s).st = s.st := by
    simp only [writeStep1, FTLState.modifyCore]
    split
    · rw [hgcf]
    · rfl
  have hstep2 : ∀ t : FTLState α, (writeStep2 t lba).st = t.st := by
    intro t
    simp only [writeStep2]
    split
    · rw [FTLState.invalidateAt, FTLState.setBlockAt, FTLState.modifyCore]
    · rfl
  have hfin : ∀ (t : FTLState α) (bi : Nat), ((finishWrite t bi lba).1).st = t.st := by
    intro t bi
    simp only [finishWrite]
    split <;> rw [tryProgram_st]
  rw [genWrite]
  simp only [writeStep3]
  split
  · rename_i bp s1 heq
    rw [hfin]
    have h2 := halloc (writeStep2 (writeStep1 gcf s) lba)
    rw [heq] at h2
    rw [h2, hstep2, hstep1]
  · rename_i s1 heq
    have h2 := halloc (writeStep2 (writeStep1 gcf s) lba)
    rw [heq] at h2
    split
    · rename_i bp s3 heq3
      rw [hfin]
      have h4 := halloc (gcf s1)
      rw [heq3] at h4
      rw [h4, hgcf, h2, hstep2, hstep1]
    · rename_i s3 heq3
      have h4 := halloc (gcf s1)
      rw [heq3] at h4
      rw [h4, hgcf, h2, hstep2, hstep1]

theorem adaptive_genWrite_st (s : AdaptiveFTL) (lba : Nat) :
    ((genWrite adaptiveAlloc adaptiveGC s lba).1).st = s.st :=
  genWrite_st (fun _ => rfl) (fun t => genGC_st (fun _ => rfl) t) s lba

theorem clamp_ok (x : ℚ) : (0.1 : ℚ) ≤ max (qsci 1 1) (min x 2) ∧ max (qsci 1 1) (min x 2) ≤ 2 := by
  have h01 : qsci 1 1 = (0.1 : ℚ) := qsci_eq 1 1
  constructor
  · rw [← h01]
    exact le_max_left _ _
  · apply max_le
    · rw [h01]
      norm_num [show ((0.1 : ℚ)) = Rat.ofScientific 1 true 1 from rfl, Rat.ofScientific_true_def]
    · exact min_le_right _ _

theorem adaptWeights_ok (s : AdaptiveFTL) : WeightsOK (adaptWeights s).st := by
  rw [adaptWeights]
  split
  · refine ⟨⟨?_, ?_⟩, ⟨?_, ?_⟩, ⟨?_, ?_⟩⟩ <;>
      simp only [qsci_eq] <;>
      norm_num [Rat.ofScientific_true_def, show ((0.1:ℚ)) = Rat.ofScientific 1 true 1 from rfl]
  · exact ⟨clamp_ok _, clamp_ok _, clamp_ok _⟩

/-- **C7.**  After any number of `write` calls on the Adaptive strategy —
hence after any number of adaptation rounds, including rounds that take the
stabilization override (which snaps the weights to α = 1.5, γ = 1.5, β = 0.5
and skips the clamped standard adjustment) — each of α, β, γ lies in
`[0.1, 2.0]`. -/
theorem c7_weights_bounded (s : AdaptiveFTL) (h : AReachable s) :
    ((0.1 : ℚ) ≤ s.st.alpha ∧ s.st.alpha ≤ 2) ∧
    ((0.1 : ℚ) ≤ s.st.beta ∧ s.st.beta ≤ 2) ∧
    ((0.1 : ℚ) ≤ s.st.gamma ∧ s.st.gamma ≤ 2) := by
  have main : WeightsOK s.st := by
    induction h with
    | init s hi =>
      obtain ⟨tb, ppb, op, rfl⟩ := hi
      refine ⟨⟨?_, ?_⟩, ⟨?_, ?_⟩, ⟨?_, ?_⟩⟩ <;>
        norm_num [adaptiveInit,
          show ((0.1:ℚ)) = Rat.ofScientific 1 true 1 from rfl, Rat.ofScientific_true_def]
    | step s lba _ ih =>
      show WeightsOK ((adaptiveWrite s lba).1).st
      rw [adaptiveWrite]
      simp only
      split
      · have hst := adaptive_genWrite_st
          ({ s with st := { s.st with lba_access_count := fun k =>
            if k = lba then s.st.lba_access_count lba + 1 else s.st.lba_access_count k } }) lba
        simpa [WeightsOK, hst] using ih
      · split
        · exact adaptWeights_ok _
        · have hst := adaptive_genWrite_st
            ({ s with st := { s.st with lba_access_count := fun k =>
              if k = lba then s.st.lba_access_count lba + 1 else s.st.lba_access_count k } }) lba
          simpa [WeightsOK, hst] using ih
  exact main

/-- Witness for C7 at the freshly constructed Adaptive FTL. -/
theorem c7_weights_bounded_witness :
    ((0.1 : ℚ) ≤ (adaptiveInit 2 2 (qsci 1 1)).st.alpha
      ∧ (adaptiveInit 2 2 (qsci 1 1)).st.alpha ≤ 2) ∧
    ((0.1 : ℚ) ≤ (adaptiveInit 2 2 (qsci 1 1)).st.beta
      ∧ (adaptiveInit 2 2 (qsci 1 1)).st.beta ≤ 2) ∧
    ((0.1 : ℚ) ≤ (adaptiveInit 2 2 (qsci 1 1)).st.gamma
      ∧ (adaptiveInit 2 2 (qsci 1 1)).st.gamma ≤ 2) :=
  c7_weights_bounded _ (reach_init_adaptive 2 2 (qsci 1 1))

/-! ### Claim C8 : migration loop and unconditional erase -/
theorem getD_set_self {β : Type} : ∀ (l : List β) (i : Nat) (a d : β), i < l.length →
    (l.set i a).getD i d = a := by
  intro l
  induction l with
  | nil => intro i a d h; exact absurd h (by simp)
  | cons x xs ih =>
    intro i a d h
    cases i with
    | zero => rfl
    | succ n =>
      simp only [List.set_cons_succ, List.getD_cons_succ]
      exact ih n a d (by simpa using h)

theorem getD_set_ne {β : Type} : ∀ (l : List β) (i j : Nat) (a d : β), i ≠ j →
    (l.set i a).getD j d = l.getD j d := by
  intro l
  induction l with
  | nil => intro i j a d _; simp [List.set_nil]
  | cons x xs ih =>
    intro i j a d hne
    cases i with
    | zero =>
      cases j with
      | zero => exact absurd rfl hne
      | succ m => rfl
    | succ n =>
      cases j with
      | zero => rfl
      | succ m =>
        simp only [List.set_cons_succ, List.getD_cons_succ]
        exact ih n m a d (fun h => hne (by rw [h]))

theorem blockAt_setBlockAt_self {α : Type} (s : FTLState α) (bi : Nat) (b : Block)
    (h : bi < s.core.nand.blocks.length) : (s.setBlockAt bi b).blockAt bi = b := by
  simp only [FTLState.setBlockAt, FTLState.modifyCore, FTLState.blockAt, NANDFlash.get_block,
    NANDFlash.setBlock]
  exact getD_set_self _ _ _ _ h

theorem blockAt_setBlockAt_ne {α : Type} (s : FTLState α) (bi bj : Nat) (b : Block)
    (h : bi ≠ bj) : (s.setBlockAt bi b).blockAt bj = s.blockAt bj := by
  simp only [FTLState.setBlockAt, FTLState.modifyCore, FTLState.blockAt, NANDFlash.get_block,
    NANDFlash.setBlock]
  exact getD_set_ne _ _ _ _ _ h

theorem tryProgram_eq_of_write {α : Type} (s : FTLState α) (bi : Nat) (t : Option Nat)
    (ok : Bool) (idx : Nat) (b' : Block)
    (hwp : (s.blockAt bi).write_page t = (ok, idx, b')) :
    s.tryProgram bi t
      = if ok then
          ((s.setBlockAt bi b').modifyCore (fun c =>
            { c with l2p := fun k => if k = t then some (bi, idx) else c.l2p k,
                     total_writes := c.total_writes + 1 }), true, idx)
        else (s.setBlockAt bi b', false, idx) := by
  simp only [FTLState.tryProgram, hwp]

/-- **C8.**  In both strategies' `garbage_collect` (both are instances of
`genGC`, with migration the shared `genMigrate` loop): migration examines the
victim's pages in index order — a non-VALID page is skipped with no state
change; a VALID page is migrated by allocating a new location and running the
program-remap-count step (which, when the target block has a free slot,
writes the tag at its cursor, points the translation table entry at the new
location, and increments `total_writes`); if allocation fails the loop stops
immediately, leaving all remaining pages unmigrated; and after the loop the
victim block is erased unconditionally. -/
theorem c8_migration :
    (baselineGC = genGC baselineSelect baselineAlloc ∧
      adaptiveGC = genGC adaptiveSelect adaptiveAlloc) ∧
    (∀ (α : Type) (alloc : Alloc α) (v fuel i : Nat) (s : FTLState α),
      ((s.blockAt v).pages.getD i Page.fresh).state ≠ .VALID →
      genMigrate alloc v (fuel + 1) i s = genMigrate alloc v fuel (i + 1) s) ∧
    (∀ (α : Type) (alloc : Alloc α) (v fuel i : Nat) (s s1 : FTLState α) (bp : Nat × Nat),
      ((s.blockAt v).pages.getD i Page.fresh).state = .VALID →
      alloc s = (some bp, s1) →
      genMigrate alloc v (fuel + 1) i s
        = genMigrate alloc v fuel (i + 1)
            (s1.tryProgram bp.1 ((s.blockAt v).pages.getD i Page.fresh).logical_address).1) ∧
    (∀ (α : Type) (alloc : Alloc α) (v fuel i : Nat) (s s1 : FTLState α),
      ((s.blockAt v).pages.getD i Page.fresh).state = .VALID →
      alloc s = (none, s1) →
      genMigrate alloc v (fuel + 1) i s = s1) ∧
    (∀ (α : Type) (s : FTLState α) (bi : Nat) (t : Option Nat),
      bi < s.core.nand.blocks.length →
      (s.blockAt bi).next_free_page_index < (s.blockAt bi).pages_per_block →
      (s.blockAt bi).next_free_page_index < (s.blockAt bi).pages.length →
      ((s.tryProgram bi t).2.1 = true ∧
        ((s.tryProgram bi t).1).core.l2p t = some (bi, (s.blockAt bi).next_free_page_index) ∧
        ((s.tryProgram bi t).1).core.total_writes = s.core.total_writes + 1 ∧
        (((s.tryProgram bi t).1).blockAt bi).pages.getD (s.blockAt bi).next_free_page_index
          Page.fresh = ⟨.VALID, t⟩)) ∧
    (∀ (α : Type) (select : FTLState α → Option Nat) (alloc : Alloc α) (s : FTLState α) (v : Nat),
      select (s.modifyCore (fun c => { c with gc_count := c.gc_count + 1 })) = some v →
      genGC select alloc s
        = (genMigrate alloc v
            (((s.modifyCore (fun c => { c with gc_count := c.gc_count + 1 })).blockAt v).pages.length)
            0 (s.modifyCore (fun c => { c with gc_count := c.gc_count + 1 }))).eraseAt v) ∧
    (∀ (α : Type) (s : FTLState α) (v : Nat), v < s.core.nand.blocks.length →
      ((s.eraseAt v).blockAt v) = (s.blockAt v).erase) := by
  refine ⟨⟨rfl, rfl⟩, ?_, ?_, ?_, ?_, ?_, ?_⟩
  · intro α alloc v fuel i s h
    simp only [genMigrate]
    rw [if_neg (by simpa using h)]
  · intro α alloc v fuel i s s1 bp hval halloc
    simp only [genMigrate]
    rw [if_pos ?_]
    · rw [halloc]
    · rcases hp : (s.blockAt v).pages.getD i Page.fresh with ⟨st, t⟩
      rw [hp] at hval
      simp only at hval
      simp [hval]
  · intro α alloc v fuel i s s1 hval halloc
    simp only [genMigrate]
    rw [if_pos ?_]
    · rw [halloc]
    · rcases hp : (s.blockAt v).pages.getD i Page.fresh with ⟨st, t⟩
      rw [hp] at hval
      simp only at hval
      simp [hval]
  · intro α s bi t hbi hcur hplen
    have hwp : (s.blockAt bi).write_page t
        = (true, (s.blockAt bi).next_free_page_index,
            { s.blockAt bi with
              pages := (s.blockAt bi).pages.set (s.blockAt bi).next_free_page_index ⟨.VALID, t⟩,
              free_pages := (s.blockAt bi).free_pages - 1,
              valid_pages := (s.blockAt bi).valid_pages + 1,
              next_free_page_index := (s.blockAt bi).next_free_page_index + 1 }) := by
      rw [Block.write_page, if_neg (by omega)]
    have htp := tryProgram_eq_of_write s bi t true (s.blockAt bi).next_free_page_index _ hwp
    rw [if_pos rfl] at htp
    refine ⟨?_, ?_, ?_, ?_⟩
    · rw [htp]
    · rw [htp]
      simp [FTLState.modifyCore]
    · rw [htp]
      rfl
    · rw [htp]
      have hbat : (((s.setBlockAt bi
          { s.blockAt bi with
            pages := (s.blockAt bi).pages.set (s.blockAt bi).next_free_page_index ⟨.VALID, t⟩,
            free_pages := (s.blockAt bi).free_pages - 1,
            valid_pages := (s.blockAt bi).valid_pages + 1,
            next_free_page_index := (s.blockAt bi).next_free_page_index + 1 }).modifyCore
            (fun c => { c with
              l2p := fun k =>
                if k = t then some (bi, (s.blockAt bi).next_free_page_index) else c.l2p k,
              total_writes := c.total_writes + 1 })).blockAt bi)
          = { s.blockAt bi with
              pages := (s.blockAt bi).pages.set (s.blockAt bi).next_free_page_index ⟨.VALID, t⟩,
              free_pages := (s.blockAt bi).free_pages - 1,
              valid_pages := (s.blockAt bi).valid_pages + 1,
              next_free_page_index := (s.blockAt bi).next_free_page_index + 1 } := by
        rw [show ∀ (x : FTLState α) (f : Core → Core), (x.modifyCore f).blockAt bi
            = (f x.core).nand.get_block bi from fun _ _ => rfl]
        exact blockAt_setBlockAt_self s bi _ hbi
      rw [hbat]
      exact getD_set_self _ _ _ _ hplen
  · intro α select alloc s v hsel
    simp only [genGC]
    rw [hsel]
  · intro α s v hv
    simp only [FTLState.eraseAt, FTLState.setBlockAt, FTLState.modifyCore, FTLState.blockAt,
      NANDFlash.get_block, NANDFlash.setBlock]
    rw [List.getD_eq_getElem _ _ (by simpa using hv)]
    simp

set_option maxHeartbeats 2000000 in
/-- Witness for C8 at concrete states: a FREE page is skipped; with the
device full, migration stops at a VALID page; a successful program step
remaps and counts; a selected victim is erased after migration. -/
theorem c8_migration_witness :
    (genMigrate baselineAlloc 0 2 0 (baselineInit 2 2 (qsci 1 1))
      = genMigrate baselineAlloc 0 1 1 (baselineInit 2 2 (qsci 1 1))) ∧
    (genMigrate adaptiveAlloc 1 1 0 (runWrites adaptiveWrite (adaptiveInit 2 2 (qsci 1 1))
        [0, 1, 2, 3])
      = runWrites adaptiveWrite (adaptiveInit 2 2 (qsci 1 1)) [0, 1, 2, 3]) ∧
    (((baselineInit 2 2 (qsci 1 1)).tryProgram 0 (some 5)).1.core.l2p (some 5) = some (0, 0) ∧
      ((baselineInit 2 2 (qsci 1 1)).tryProgram 0 (some 5)).1.core.total_writes
        = (baselineInit 2 2 (qsci 1 1)).core.total_writes + 1) ∧
    (genGC adaptiveSelect adaptiveAlloc (runWrites adaptiveWrite (adaptiveInit 2 2 (qsci 1 1))
        [0, 1, 2, 0])
      = (genMigrate adaptiveAlloc 0
          ((((runWrites adaptiveWrite (adaptiveInit 2 2 (qsci 1 1)) [0, 1, 2, 0]).modifyCore
            (fun c => { c with gc_count := c.gc_count + 1 })).blockAt 0).pages.length)
          0 ((runWrites adaptiveWrite (adaptiveInit 2 2 (qsci 1 1)) [0, 1, 2, 0]).modifyCore
            (fun c => { c with gc_count := c.gc_count + 1 }))).eraseAt 0) := by
  refine ⟨?_, ?_, ⟨?_, ?_⟩, ?_⟩
  · exact c8_migration.2.1 Nat baselineAlloc 0 1 0 _ (by decide)
  · exact c8_migration.2.2.2.1 AdaptState adaptiveAlloc 1 0 0 _ _ (by decide) (by rfl)
  · exact (c8_migration.2.2.2.2.1 Nat _ 0 (some 5) (by decide) (by decide) (by decide)).2.1
  · exact (c8_migration.2.2.2.2.1 Nat _ 0 (some 5) (by decide) (by decide) (by decide)).2.2.1
  · exact c8_migration.2.2.2.2.2.1 AdaptState adaptiveSelect adaptiveAlloc _ 0 (by decide)

theorem write_page_sum (b : Block) (t : Option Nat) (h : BlockSumOK b) :
    BlockSumOK ((b.write_page t).2.2) := by
  rw [Block.write_page]
  split
  · exact h
  · rw [BlockSumOK] at h ⊢
    simp only
    omega

theorem invalidate_page_sum (b : Block) (i : Nat) (h : BlockSumOK b) :
    BlockSumOK (b.invalidate_page i) := by
  rw [Block.invalidate_page]
  split
  · split
    · rw [BlockSumOK] at h ⊢
      simp only
      omega
    · exact h
  · exact h

theorem erase_sum (b : Block) : BlockSumOK b.erase := by
  rw [Block.erase, BlockSumOK]
  simp

theorem blockSumOK_init (id ppb : Nat) : BlockSumOK (Block.init id ppb) := by
  rw [Block.init, BlockSumOK]
  simp

theorem getD_mem_or_default {β : Type} : ∀ (l : List β) (i : Nat) (d : β),
    l.getD i d ∈ l ∨ l.getD i d = d := by
  intro l
  induction l with
  | nil => intro i d; exact Or.inr rfl
  | cons x xs ih =>
    intro i d
    cases i with
    | zero => exact Or.inl (List.mem_cons_self x xs)
    | succ n =>
      rcases ih n d with h | h
      · exact Or.inl (List.mem_cons_of_mem x h)
      · exact Or.inr h

theorem allSumOK_blockAt {α : Type} {s : FTLState α} (h : AllSumOK s) (i : Nat) :
    BlockSumOK (s.blockAt i) := by
  rw [FTLState.blockAt, NANDFlash.get_block]
  rcases getD_mem_or_default s.core.nand.blocks i (Block.init 0 0) with hm | hd
  · exact h _ hm
  · rw [hd]
    exact blockSumOK_init 0 0

theorem allSumOK_set {α : Type} {s : FTLState α} (h : AllSumOK s) {b : Block}
    (hb : BlockSumOK b) (i : Nat) : AllSumOK (s.setBlockAt i b) := by
  intro x hx
  simp only [FTLState.setBlockAt, FTLState.modifyCore, NANDFlash.setBlock] at hx
  rcases List.mem_or_eq_of_mem_set hx with hm | he
  · exact h _ hm
  · rw [he]
    exact hb

theorem allSumOK_modifyCoreNoNand {α : Type} {s : FTLState α} (h : AllSumOK s)
    (f : Core → Core) (hf : (f s.core).nand = s.core.nand) : AllSumOK (s.modifyCore f) := by
  intro x hx
  apply h
  simp only [FTLState.modifyCore] at hx
  rw [hf] at hx
  exact hx

theorem tryProgram_sum {α : Type} {s : FTLState α} (h : AllSumOK s) (bi : Nat)
    (t : Option Nat) : AllSumOK ((s.tryProgram bi t).1) := by
  simp only [FTLState.tryProgram]
  split
  · exact allSumOK_modifyCoreNoNand
      (allSumOK_set h (write_page_sum _ t (allSumOK_blockAt h bi)) bi) _ rfl
  · exact allSumOK_set h (write_page_sum _ t (allSumOK_blockAt h bi)) bi

theorem genMigrate_sum {α : Type} {alloc : Alloc α}
    (halloc : ∀ s : FTLState α, ((alloc s).2).core = s.core) (v : Nat) :
    ∀ (fuel i : Nat) (s : FTLState α), AllSumOK s → AllSumOK (genMigrate alloc v fuel i s) := by
  intro fuel
  induction fuel with
  | zero => intro i s h; exact h
  | succ n ih =>
    intro i s h
    simp only [genMigrate]
    split
    · split
      · rename_i bp s1 heq
        refine ih _ _ (tryProgram_sum ?_ _ _)
        have h2 := halloc s
        rw [heq] at h2
        intro x hx
        rw [AllSumOK, h2] at *
        exact h x hx
      · rename_i s1 heq
        have h2 := halloc s
        rw [heq] at h2
        intro x hx
        rw [h2] at hx
        exact h x hx
    · exact ih _ s h

theorem genGC_sum {α : Type} {select : FTLState α → Option Nat} {alloc : Alloc α}
    (halloc : ∀ s : FTLState α, ((alloc s).2).core = s.core) (s : FTLState α)
    (h : AllSumOK s) : AllSumOK (genGC select alloc s) := by
  simp only [genGC]
  have h1 : AllSumOK (s.modifyCore (fun c => { c with gc_count := c.gc_count + 1 })) :=
    allSumOK_modifyCoreNoNand h _ rfl
  split
  · exact h1
  · rename_i v heq
    exact allSumOK_set (genMigrate_sum halloc v _ _ _ h1) (erase_sum _) v

theorem genWrite_sum {α : Type} {alloc : Alloc α} {gcf : FTLState α → FTLState α}
    (halloc : ∀ s : FTLState α, ((alloc s).2).core = s.core)
    (hgcf : ∀ s : FTLState α, AllSumOK s → AllSumOK (gcf s)) (s : FTLState α) (lba : Nat)
    (h : AllSumOK s) : AllSumOK ((genWrite alloc gcf s lba).1) := by
  have h1 : AllSumOK (writeStep1 gcf s) := by
    simp only [writeStep1]
    split
    · exact hgcf _ (allSumOK_modifyCoreNoNand h _ rfl)
    · exact allSumOK_modifyCoreNoNand h _ rfl
  have h2 : AllSumOK (writeStep2 (writeStep1 gcf s) lba) := by
    simp only [writeStep2]
    split
    · exact allSumOK_set h1 (invalidate_page_sum _ _ (allSumOK_blockAt h1 _)) _
    · exact h1
  rw [genWrite]
  simp only [writeStep3]
  split
  · rename_i bp s1 heq
    have h3 := halloc (writeStep2 (writeStep1 gcf s) lba)
    rw [heq] at h3
    simp only [finishWrite]
    split
    · refine tryProgram_sum ?_ _ _
      intro x hx
      rw [h3] at hx
      exact h2 x hx
    · refine tryProgram_sum ?_ _ _
      intro x hx
      rw [h3] at hx
      exact h2 x hx
  · rename_i s1 heq
    have h3 := halloc (writeStep2 (writeStep1 gcf s) lba)
    rw [heq] at h3
    have h4 : AllSumOK s1 := by
      intro x hx
      rw [h3] at hx
      exact h2 x hx
    have h5 : AllSumOK (gcf s1) := hgcf _ h4
    split
    · rename_i bp s3 heq3
      have h6 := halloc (gcf s1)
      rw [heq3] at h6
      simp only [finishWrite]
      have h7 : AllSumOK s3 := by
        intro x hx
        rw [h6] at hx
        exact h5 x hx
      split
      · exact tryProgram_sum h7 _ _
      · exact tryProgram_sum h7 _ _
    · rename_i s3 heq3
      have h6 := halloc (gcf s1)
      rw [heq3] at h6
      intro x hx
      rw [h6] at hx
      exact h5 x hx

theorem baseline_write_sum (s : BaselineFTL) (lba : Nat) (h : AllSumOK s) :
    AllSumOK ((baselineWrite s lba).1) :=
  genWrite_sum baselineAlloc_core
    (fun t ht => genGC_sum baselineAlloc_core t ht) s lba h

theorem adaptive_write_sum (s : AdaptiveFTL) (lba : Nat) (h : AllSumOK s) :
    AllSumOK ((adaptiveWrite s lba).1) := by
  rw [adaptiveWrite]
  simp only
  have hbase : AllSumOK ((genWrite adaptiveAlloc adaptiveGC
      ({ s with st := { s.st with lba_access_count := fun k =>
        if k = lba then s.st.lba_access_count lba + 1 else s.st.lba_access_count k } })
      lba).1) :=
    genWrite_sum adaptiveAlloc_core
      (fun t ht => genGC_sum adaptiveAlloc_core t ht) _ lba
      (by intro x hx; exact h x hx)
  split
  · exact hbase
  · split
    · have hc : ∀ t : AdaptiveFTL, (adaptWeights t).core = t.core := by
        intro t
        rw [adaptWeights]
        split <;> rfl
      intro x hx
      rw [hc] at hx
      exact hbase x hx
    · exact hbase

theorem allSumOK_init {α : Type} (tb ppb : Nat) (op : ℚ) (st : α) :
    AllSumOK ({ core := Core.init tb ppb op, st := st } : FTLState α) := by
  intro b hb
  simp only [Core.init, NANDFlash.init, List.mem_map] at hb
  obtain ⟨i, _, rfl⟩ := hb
  exact blockSumOK_init i ppb

/-- **C9.**  For every block in every reachable state (either strategy),
`free_pages + valid_pages + invalid_pages = pages_per_block`; and each of the
block operations `write_page`, `invalidate_page` and `erase` preserves the
equation (`erase` establishes it outright). -/
theorem c9_block_counts :
    (∀ s : BaselineFTL, BReachable s → ∀ b ∈ s.core.nand.blocks,
      b.free_pages + b.valid_pages + b.invalid_pages = (b.pages_per_block : Int)) ∧
    (∀ s : AdaptiveFTL, AReachable s → ∀ b ∈ s.core.nand.blocks,
      b.free_pages + b.valid_pages + b.invalid_pages = (b.pages_per_block : Int)) ∧
    (∀ (b : Block) (t : Option Nat),
      b.free_pages + b.valid_pages + b.invalid_pages = (b.pages_per_block : Int) →
      ((b.write_page t).2.2).free_pages + ((b.write_page t).2.2).valid_pages
          + ((b.write_page t).2.2).invalid_pages = (((b.write_page t).2.2).pages_per_block : Int)) ∧
    (∀ (b : Block) (i : Nat),
      b.free_pages + b.valid_pages + b.invalid_pages = (b.pages_per_block : Int) →
      (b.invalidate_page i).free_pages + (b.invalidate_page i).valid_pages
          + (b.invalidate_page i).invalid_pages = ((b.invalidate_page i).pages_per_block : Int)) ∧
    (∀ b : Block, b.erase.free_pages + b.erase.valid_pages + b.erase.invalid_pages
        = (b.erase.pages_per_block : Int)) := by
  refine ⟨?_, ?_, fun b t h => write_page_sum b t h, fun b i h => invalidate_page_sum b i h,
    fun b => erase_sum b⟩
  · intro s hs
    induction hs with
    | init s hi =>
      obtain ⟨tb, ppb, op, rfl⟩ := hi
      exact allSumOK_init tb ppb op 0
    | step s lba _ ih => exact baseline_write_sum s lba ih
  · intro s hs
    induction hs with
    | init s hi =>
      obtain ⟨tb, ppb, op, rfl⟩ := hi
      exact allSumOK_init tb ppb op _
    | step s lba _ ih => exact adaptive_write_sum s lba ih

/-- Witness for C9: the equation holds for every block after five writes on
a 2 × 2 Baseline device (a run that includes a reclaiming GC), and the three
operation-level implications at a concrete block. -/
theorem c9_block_counts_witness :
    (∀ b ∈ (runWrites baselineWrite (baselineInit 2 2 (qsci 1 1))
        [0, 1, 2, 0, 3]).core.nand.blocks,
      b.free_pages + b.valid_pages + b.invalid_pages = (b.pages_per_block : Int)) ∧
    (((Block.init 7 2).write_page (some 3)).2.2).free_pages
        + (((Block.init 7 2).write_page (some 3)).2.2).valid_pages
        + (((Block.init 7 2).write_page (some 3)).2.2).invalid_pages
      = ((((Block.init 7 2).write_page (some 3)).2.2).pages_per_block : Int) :=
  ⟨c9_block_counts.1 _ (reach_runWrites (reach_init_baseline 2 2 (qsci 1 1)) _),
   c9_block_counts.2.2.1 (Block.init 7 2) (some 3) (by decide)⟩

/-! ### Well-formedness machinery for the reachable-state invariants -/
theorem getD_oob {β : Type} : ∀ (l : List β) (i : Nat) (d : β), l.length ≤ i →
    l.getD i d = d := by
  intro l
  induction l with
  | nil => intro i d _; simp
  | cons x xs ih =>
    intro i d h
    cases i with
    | zero => exact absurd h (by simp)
    | succ n => exact ih n d (by simpa using h)

theorem getD_replicate {β : Type} : ∀ (n i : Nat) (a d : β), i < n →
    (List.replicate n a).getD i d = a := by
  intro n
  induction n with
  | zero => intro i a d h; omega
  | succ m ih =>
    intro i a d h
    cases i with
    | zero => rfl
    | succ k => exact ih k a d (by omega)

theorem blockWF_init (id ppb : Nat) : BlockWF ppb (Block.init id ppb) := by
  refine ⟨rfl, by simp [Block.init], by simp [Block.init], by simp [Block.init], ?_⟩
  intro j h1 h2
  exact getD_replicate ppb j Page.fresh Page.fresh h2

/-- A successful `write_page` on a well-formed block with a free slot. -/
theorem write_page_wf {ppb : Nat} {b : Block} (hwf : BlockWF ppb b) (hfree : 0 < b.free_pages)
    (t : Option Nat) :
    b.write_page t
      = (true, b.next_free_page_index,
          { b with pages := b.pages.set b.next_free_page_index ⟨.VALID, t⟩,
                   free_pages := b.free_pages - 1,
                   valid_pages := b.valid_pages + 1,
                   next_free_page_index := b.next_free_page_index + 1 }) ∧
    BlockWF ppb (b.write_page t).2.2 ∧
    b.next_free_page_index < ppb ∧
    b.pages.getD b.next_free_page_index Page.fresh = Page.fresh := by
  obtain ⟨hppb, hlen, hcur, hfr, hhigh⟩ := hwf
  have hlt : b.next_free_page_index < ppb := by
    rw [hfr] at hfree
    omega
  have heq : b.write_page t
      = (true, b.next_free_page_index,
          { b with pages := b.pages.set b.next_free_page_index ⟨.VALID, t⟩,
                   free_pages := b.free_pages - 1,
                   valid_pages := b.valid_pages + 1,
                   next_free_page_index := b.next_free_page_index + 1 }) := by
    rw [Block.write_page, if_neg (by omega)]
  have hwf' : BlockWF ppb
      { b with pages := b.pages.set b.next_free_page_index ⟨.VALID, t⟩,
               free_pages := b.free_pages - 1,
               valid_pages := b.valid_pages + 1,
               next_free_page_index := b.next_free_page_index + 1 } := by
    refine ⟨hppb, by simpa using hlen, by simp only; omega, ?_, ?_⟩
    · simp only
      rw [hfr]
      push_cast
      ring
    · intro j h1 h2
      simp only at h1 ⊢
      rw [getD_set_ne _ _ _ _ _ (by omega)]
      exact hhigh j (by omega) h2
  refine ⟨heq, ?_, hlt, hhigh _ (le_refl _) hlt⟩
  rw [heq]
  exact hwf'

theorem invalidate_page_wf {ppb : Nat} {b : Block} (hwf : BlockWF ppb b) (i : Nat) :
    BlockWF ppb (b.invalidate_page i) := by
  obtain ⟨hppb, hlen, hcur, hfr, hhigh⟩ := hwf
  rw [Block.invalidate_page]
  split
  · split
    · rename_i hrange hval
      refine ⟨hppb, by simpa using hlen, hcur, hfr, ?_⟩
      intro j h1 h2
      simp only at h1 h2 ⊢
      have hine : i < b.next_free_page_index := by
        by_contra hge
        have := hhigh i (by omega) (by omega)
        rw [this] at hval
        exact absurd hval (by rw [Page.fresh]; simp)
      rw [getD_set_ne _ _ _ _ _ (by omega)]
      exact hhigh j h1 h2
    · exact ⟨hppb, hlen, hcur, hfr, hhigh⟩
  · exact ⟨hppb, hlen, hcur, hfr, hhigh⟩

theorem erase_wf {ppb : Nat} {b : Block} (hwf : BlockWF ppb b) : BlockWF ppb b.erase := by
  obtain ⟨hppb, hlen, hcur, hfr, hhigh⟩ := hwf
  rw [Block.erase]
  refine ⟨hppb, by simp [hppb], by simp only; omega, by simp only; rw [hppb]; simp, ?_⟩
  intro j h1 h2
  simp only at h1 h2 ⊢
  rw [hppb]
  exact getD_replicate ppb j Page.fresh Page.fresh h2

theorem coreWF_of_nand_eq {c c' : Core} (h : c'.nand = c.nand) (hwf : CoreWF c) : CoreWF c' := by
  obtain ⟨h1, h2, h3⟩ := hwf
  exact ⟨by rw [h]; exact h1, by rw [h]; exact h2, by rw [h]; exact h3⟩

theorem invMap_of_eq {c c' : Core} (hn : c'.nand = c.nand) (hl : c'.l2p = c.l2p)
    (h : InvMap c) : InvMap c' := by
  intro t bi pi hv
  rw [hl]
  apply h
  rw [ValidTaggedAt] at hv ⊢
  rw [hn] at hv
  exact hv

theorem blockAt_wf {α : Type} {s : FTLState α} (h : CoreWF s.core) (i : Nat)
    (hi : i < s.core.nand.blocks.length) :
    BlockWF s.core.nand.pages_per_block (s.blockAt i) := h.blockwf i hi

theorem blockAt_oob {α : Type} (s : FTLState α) (i : Nat)
    (hi : s.core.nand.blocks.length ≤ i) : s.blockAt i = Block.init 0 0 := by
  rw [FTLState.blockAt, NANDFlash.get_block]
  exact getD_oob _ _ _ hi

theorem valid_page_bounds {α : Type} (s : FTLState α) (i j : Nat)
    (h : ((s.blockAt i).pages.getD j Page.fresh).state = .VALID) :
    i < s.core.nand.blocks.length ∧ j < (s.blockAt i).pages.length := by
  constructor
  · by_contra hge
    rw [blockAt_oob s i (by omega)] at h
    rw [show (Block.init 0 0).pages = [] from rfl] at h
    exact absurd h (by rw [show ([] : List Page).getD j Page.fresh = Page.fresh from rfl]; decide)
  · by_contra hge
    rw [getD_oob _ _ _ (by omega)] at h
    exact absurd h (by rw [Page.fresh]; decide)

theorem coreWF_setBlockAt {α : Type} {s : FTLState α} (h : CoreWF s.core) {i : Nat} {b : Block}
    (hwf : BlockWF s.core.nand.pages_per_block b) (hid : b.block_id = i) :
    CoreWF ((s.setBlockAt i b).core) := by
  obtain ⟨h1, h2, h3⟩ := h
  have hset : (s.setBlockAt i b).core.nand.blocks = s.core.nand.blocks.set i b := rfl
  have hppb : (s.setBlockAt i b).core.nand.pages_per_block = s.core.nand.pages_per_block := rfl
  refine ⟨?_, ?_, ?_⟩
  · rw [hset, List.length_set]
    exact h1
  · intro j hj
    rw [hset, List.length_set] at hj
    rw [hset]
    by_cases hji : j = i
    · subst hji
      by_cases hlt : j < s.core.nand.blocks.length
      · rw [getD_set_self _ _ _ _ hlt]
        exact hid
      · rw [getD_oob _ _ _ (by rw [List.length_set]; omega)]
        exact absurd hj hlt
    · rw [getD_set_ne _ _ _ _ _ (fun hh => hji hh.symm)]
      exact h2 j hj
  · intro j hj
    rw [hset, List.length_set] at hj
    rw [hset, hppb]
    by_cases hji : j = i
    · subst hji
      rw [getD_set_self _ _ _ _ hj]
      exact hwf
    · rw [getD_set_ne _ _ _ _ _ (fun hh => hji hh.symm)]
      exact h3 j hj

/-- Full characterization of a program step (`write_page` + remap + count) on
a well-formed state with a free slot in the target block. -/
theorem tryProgram_char {α : Type} {s : FTLState α} {bi : Nat} (t0 : Option Nat)
    (hwf : CoreWF s.core) (hbi : bi < s.core.nand.blocks.length)
    (hfree : 0 < (s.blockAt bi).free_pages) :
    CoreWF ((s.tryProgram bi t0).1).core ∧
    (s.tryProgram bi t0).2.1 = true ∧
    ((s.tryProgram bi t0).1).core.l2p
      = (fun k => if k = t0 then some (bi, (s.blockAt bi).next_free_page_index)
          else s.core.l2p k) ∧
    (∀ b j, ¬(b = bi ∧ j = (s.blockAt bi).next_free_page_index) →
      (((s.tryProgram bi t0).1).blockAt b).pages.getD j Page.fresh
        = (s.blockAt b).pages.getD j Page.fresh) ∧
    (((s.tryProgram bi t0).1).blockAt bi).pages.getD (s.blockAt bi).next_free_page_index
      Page.fresh = ⟨.VALID, t0⟩ ∧
    ((s.tryProgram bi t0).1).core.nand.blocks.length = s.core.nand.blocks.length ∧
    ((s.tryProgram bi t0).1).core.nand.pages_per_block = s.core.nand.pages_per_block ∧
    ((s.tryProgram bi t0).1).core.total_writes = s.core.total_writes + 1 := by
  obtain ⟨hweq, hbwf, hcur, hfresh⟩ := write_page_wf (blockAt_wf hwf bi hbi) hfree t0
  set b' : Block :=
    { s.blockAt bi with
      pages := (s.blockAt bi).pages.set (s.blockAt bi).next_free_page_index ⟨.VALID, t0⟩,
      free_pages := (s.blockAt bi).free_pages - 1,
      valid_pages := (s.blockAt bi).valid_pages + 1,
      next_free_page_index := (s.blockAt bi).next_free_page_index + 1 } with hb'
  have htp := tryProgram_eq_of_write s bi t0 true (s.blockAt bi).next_free_page_index b' hweq
  rw [if_pos rfl] at htp
  have hcore : ((s.tryProgram bi t0).1).core
      = { (s.setBlockAt bi b').core with
          l2p := fun k => if k = t0 then some (bi, (s.blockAt bi).next_free_page_index)
            else (s.setBlockAt bi b').core.l2p k,
          total_writes := (s.setBlockAt bi b').core.total_writes + 1 } := by
    rw [htp]
    rfl
  have hsetl2p : (s.setBlockAt bi b').core.l2p = s.core.l2p := rfl
  have hb'wf : BlockWF s.core.nand.pages_per_block b' := by
    rw [hb']
    rw [hweq] at hbwf
    exact hbwf
  have hid : b'.block_id = bi := by
    rw [hb']
    exact hwf.ids bi hbi
  have hcwf1 : CoreWF ((s.setBlockAt bi b').core) := coreWF_setBlockAt hwf hb'wf hid
  refine ⟨?_, ?_, ?_, ?_, ?_, ?_, ?_, ?_⟩
  · rw [hcore]
    exact @coreWF_of_nand_eq (s.setBlockAt bi b').core _ rfl hcwf1
  · rw [htp]
  · rw [hcore, hsetl2p]
  · intro b j hne
    have hblk : ((s.tryProgram bi t0).1).blockAt b = (s.setBlockAt bi b').blockAt b := by
      rw [htp]
      rfl
    rw [hblk]
    by_cases hbbi : b = bi
    · subst hbbi
      rw [blockAt_setBlockAt_self s b b' hbi, hb']
      simp only
      rw [getD_set_ne _ _ _ _ _ (fun hh => hne ⟨rfl, hh.symm⟩)]
    · rw [blockAt_setBlockAt_ne s bi b b' (fun hh => hbbi hh.symm)]
  · have hblk : ((s.tryProgram bi t0).1).blockAt bi = b' := by
      rw [htp]
      rw [show ∀ (x : FTLState α) (f : Core → Core), (x.modifyCore f).blockAt bi
          = (f x.core).nand.get_block bi from fun _ _ => rfl]
      exact blockAt_setBlockAt_self s bi b' hbi
    rw [hblk, hb']
    simp only
    apply getD_set_self
    have := hbwf
    rw [hweq] at this
    have hlen := (blockAt_wf hwf bi hbi).len_eq
    have hppb := (blockAt_wf hwf bi hbi).ppb_eq
    omega
  · rw [hcore]
    have : (s.setBlockAt bi b').core.nand.blocks.length = s.core.nand.blocks.length := by
      rw [show (s.setBlockAt bi b').core.nand.blocks = s.core.nand.blocks.set bi b' from rfl]
      exact List.length_set _ _ _
    exact this
  · rw [hcore]
    rfl
  · rw [hcore]
    rfl

theorem validTaggedAt_of_page {α : Type} (s : FTLState α) (t : Option Nat) (bi pi : Nat)
    (h : (s.blockAt bi).pages.getD pi Page.fresh = ⟨.VALID, t⟩) :
    ValidTaggedAt s.core t bi pi := by
  have hb := valid_page_bounds s bi pi (by rw [h])
  exact ⟨hb.1, hb.2, h⟩

theorem page_of_validTaggedAt {α : Type} (s : FTLState α) (t : Option Nat) (bi pi : Nat)
    (h : ValidTaggedAt s.core t bi pi) :
    (s.blockAt bi).pages.getD pi Page.fresh = ⟨.VALID, t⟩ := h.2.2

set_option maxHeartbeats 1000000 in
theorem genMigrate_inv {α : Type} {alloc : Alloc α}
    (Ha1 : ∀ s : FTLState α, ((alloc s).2).core = s.core)
    (Ha2 : ∀ (s : FTLState α) (bp : Nat × Nat) (s1 : FTLState α), CoreWF s.core →
      alloc s = (some bp, s1) →
      bp.1 < s.core.nand.blocks.length ∧ 0 < (s.blockAt bp.1).free_pages)
    (v : Nat) :
    ∀ (fuel i : Nat) (s : FTLState α), CoreWF s.core → InvMapExc s.core v →
      VictimHigh s.core v i →
      CoreWF (genMigrate alloc v fuel i s).core ∧
        InvMapExc (genMigrate alloc v fuel i s).core v := by
  intro fuel
  induction fuel with
  | zero => intro i s hwf hexc _; exact ⟨hwf, hexc⟩
  | succ n ih =>
    intro i s hwf hexc hhigh
    have hhigh' : VictimHigh s.core v (i + 1) := fun j t hij hv => hhigh j t (by omega) hv
    simp only [genMigrate]
    split
    · rename_i hval
      split
      · rename_i bp s1 heq
        have hc1 : s1.core = s.core := by
          have := Ha1 s
          rw [heq] at this
          exact this
        have hbound := Ha2 s bp s1 hwf heq
        have hblk1 : ∀ x, s1.blockAt x = s.blockAt x := by
          intro x
          rw [FTLState.blockAt, FTLState.blockAt, hc1]
        set t0 := ((s.blockAt v).pages.getD i Page.fresh).logical_address with ht0
        have hpage : (s.blockAt v).pages.getD i Page.fresh = ⟨.VALID, t0⟩ := by
          rw [ht0]
          have : (s.blockAt v).pages.getD i Page.fresh
              = ⟨((s.blockAt v).pages.getD i Page.fresh).state,
                 ((s.blockAt v).pages.getD i Page.fresh).logical_address⟩ := rfl
          rw [this, hval]
        have hvt : ValidTaggedAt s.core t0 v i := validTaggedAt_of_page s t0 v i hpage
        have hmap : s.core.l2p t0 = some (v, i) := hhigh i t0 (le_refl i) hvt
        have hwf1 : CoreWF s1.core := by rw [hc1]; exact hwf
        have hbi1 : bp.1 < s1.core.nand.blocks.length := by rw [hc1]; exact hbound.1
        have hfree1 : 0 < (s1.blockAt bp.1).free_pages := by rw [hblk1]; exact hbound.2
        obtain ⟨hwf2, _, hl2p2, hpages2, hnew2, hlen2, hppb2, _⟩ :=
          tryProgram_char t0 hwf1 hbi1 hfree1
        set cursor := (s1.blockAt bp.1).next_free_page_index with hcursor
        set s2 := (s1.tryProgram bp.1 t0).1 with hs2
        have hl2p1 : s1.core.l2p = s.core.l2p := by rw [hc1]
        have hlen1 : s1.core.nand.blocks.length = s.core.nand.blocks.length := by rw [hc1]
        have hexc2 : InvMapExc s2.core v := by
          intro t bi pi hv2
          by_cases hat : bi = bp.1 ∧ pi = cursor
          · obtain ⟨hb, hp⟩ := hat
            subst hb; subst hp
            have := page_of_validTaggedAt s2 t bp.1 cursor hv2
            rw [hnew2] at this
            have htt : t = t0 := by
              have := congrArg Page.logical_address this
              simpa using this.symm
            subst htt
            left
            rw [hl2p2]
            simp
          · have hunch := hpages2 bi pi hat
            have hpg : (s.blockAt bi).pages.getD pi Page.fresh = ⟨.VALID, t⟩ := by
              rw [← hblk1 bi] at *
              rw [← hunch]
              exact page_of_validTaggedAt s2 t bi pi hv2
            have hvs : ValidTaggedAt s.core t bi pi := validTaggedAt_of_page s t bi pi hpg
            rcases hexc t bi pi hvs with hl | hr
            · by_cases htt : t = t0
              · subst htt
                rw [hl] at hmap
                right
                have h9 := Option.some.inj hmap
                exact (Prod.ext_iff.mp h9).1
              · left
                rw [hl2p2]
                simp only [if_neg htt]
                rw [hl2p1]
                exact hl
            · right
              exact hr
        have hhigh2 : VictimHigh s2.core v (i + 1) := by
          intro j t hij hv2
          by_cases hat : v = bp.1 ∧ j = cursor
          · obtain ⟨hb, hp⟩ := hat
            have := page_of_validTaggedAt s2 t v j hv2
            rw [hb, hp, hnew2] at this
            have htt : t = t0 := by
              have := congrArg Page.logical_address this
              simpa using this.symm
            subst htt
            rw [hl2p2]
            simp [hb, hp]
          · have hunch := hpages2 v j hat
            have hpg : (s.blockAt v).pages.getD j Page.fresh = ⟨.VALID, t⟩ := by
              rw [← hblk1 v] at *
              rw [← hunch]
              exact page_of_validTaggedAt s2 t v j hv2
            have hvs : ValidTaggedAt s.core t v j := validTaggedAt_of_page s t v j hpg
            have hl := hhigh j t (by omega) hvs
            by_cases htt : t = t0
            · subst htt
              rw [hl] at hmap
              have : j = i := by
                have := (Prod.mk.injEq _ _ _ _).mp (Option.some.inj hmap)
                omega
              omega
            · rw [hl2p2]
              simp only [if_neg htt]
              rw [hl2p1]
              exact hl
        exact ih (i + 1) s2 hwf2 hexc2 hhigh2
      · rename_i s1 heq
        have hc1 : s1.core = s.core := by
          have := Ha1 s
          rw [heq] at this
          exact this
        rw [hc1]
        exact ⟨hwf, hexc⟩
    · exact ih (i + 1) s hwf hexc hhigh'

theorem set_oob {β : Type} : ∀ (l : List β) (i : Nat) (b : β), l.length ≤ i →
    l.set i b = l := by
  intro l
  induction l with
  | nil => intro i b _; rfl
  | cons x xs ih =>
    intro i b h
    cases i with
    | zero => exact absurd h (by simp)
    | succ n =>
      simp only [List.set_cons_succ]
      rw [ih n b (by simpa using h)]

theorem getD_replicate_fresh (n pi : Nat) :
    (List.replicate n Page.fresh).getD pi Page.fresh = Page.fresh := by
  by_cases h : pi < n
  · exact getD_replicate n pi Page.fresh Page.fresh h
  · exact getD_oob _ _ _ (by simpa using h)

theorem genGC_inv {α : Type} {select : FTLState α → Option Nat} {alloc : Alloc α}
    (Ha1 : ∀ s : FTLState α, ((alloc s).2).core = s.core)
    (Ha2 : ∀ (s : FTLState α) (bp : Nat × Nat) (s1 : FTLState α), CoreWF s.core →
      alloc s = (some bp, s1) →
      bp.1 < s.core.nand.blocks.length ∧ 0 < (s.blockAt bp.1).free_pages)
    (s : FTLState α) (hwf : CoreWF s.core) (hinv : InvMap s.core) :
    CoreWF (genGC select alloc s).core ∧ InvMap (genGC select alloc s).core := by
  simp only [genGC]
  set s1 := s.modifyCore (fun c => { c with gc_count := c.gc_count + 1 }) with hs1
  have hwf1 : CoreWF s1.core := @coreWF_of_nand_eq s.core _ rfl hwf
  have hinv1 : InvMap s1.core := @invMap_of_eq s.core _ rfl rfl hinv
  split
  · exact ⟨hwf1, hinv1⟩
  · rename_i v heq
    have hexc1 : InvMapExc s1.core v := fun t bi pi h => Or.inl (hinv1 t bi pi h)
    have hhigh1 : VictimHigh s1.core v 0 := fun j t _ hv => hinv1 t v j hv
    obtain ⟨hwf2, hexc2⟩ :=
      genMigrate_inv Ha1 Ha2 v ((s1.blockAt v).pages.length) 0 s1 hwf1 hexc1 hhigh1
    set s2 := genMigrate alloc v ((s1.blockAt v).pages.length) 0 s1 with hs2
    by_cases hvlen : v < s2.core.nand.blocks.length
    · have herased : (s2.eraseAt v).blockAt v = (s2.blockAt v).erase :=
        blockAt_setBlockAt_self s2 v _ hvlen
      have hewf : BlockWF s2.core.nand.pages_per_block ((s2.blockAt v).erase) :=
        erase_wf (blockAt_wf hwf2 v hvlen)
      have heid : ((s2.blockAt v).erase).block_id = v := by
        rw [Block.erase]
        exact hwf2.ids v hvlen
      refine ⟨coreWF_setBlockAt hwf2 hewf heid, ?_⟩
      intro t bi pi hv2
      have hl2pE : (s2.eraseAt v).core.l2p = s2.core.l2p := rfl
      by_cases hbv : bi = v
      · subst hbv
        have hpg := page_of_validTaggedAt _ t bi pi hv2
        rw [herased] at hpg
        rw [Block.erase] at hpg
        simp only at hpg
        rw [getD_replicate_fresh] at hpg
        simp [Page.fresh] at hpg
      · have hpg := page_of_validTaggedAt _ t bi pi hv2
        have hblk : (s2.eraseAt v).blockAt bi = s2.blockAt bi :=
          blockAt_setBlockAt_ne s2 v bi _ (fun hh => hbv hh.symm)
        rw [hblk] at hpg
        have hvs : ValidTaggedAt s2.core t bi pi := validTaggedAt_of_page s2 t bi pi hpg
        rcases hexc2 t bi pi hvs with hl | hr
        · rw [hl2pE]
          exact hl
        · exact absurd hr hbv
    · have hnoop : (s2.eraseAt v).core.nand.blocks = s2.core.nand.blocks := by
        rw [show (s2.eraseAt v).core.nand.blocks
            = s2.core.nand.blocks.set v ((s2.blockAt v).erase) from rfl]
        exact set_oob _ _ _ (by omega)
      have hnand : (s2.eraseAt v).core.nand = s2.core.nand := by
        rw [show (s2.eraseAt v).core.nand
            = { s2.core.nand with blocks := s2.core.nand.blocks.set v ((s2.blockAt v).erase) }
            from rfl]
        rw [set_oob _ _ _ (by omega)]
      refine ⟨@coreWF_of_nand_eq s2.core _ hnand hwf2, ?_⟩
      intro t bi pi hv2
      have hv2' : ValidTaggedAt s2.core t bi pi := by
        rw [ValidTaggedAt] at hv2 ⊢
        rw [hnand] at hv2
        exact hv2
      rcases hexc2 t bi pi hv2' with hl | hr
      · exact hl
      · exact absurd (hr ▸ hv2'.1) (by omega)

theorem invalidate_page_id (b : Block) (i : Nat) :
    (b.invalidate_page i).block_id = b.block_id := by
  rw [Block.invalidate_page]
  split
  · split <;> rfl
  · rfl

/-- After step 3 of `write` (invalidating the old location of `lba`), the
state is well-formed, `InvMap` holds, and no VALID page is tagged `lba`. -/
theorem writeStep2_inv {α : Type} (s : FTLState α) (lba : Nat) (hwf : CoreWF s.core)
    (hinv : InvMap s.core) :
    CoreWF (writeStep2 s lba).core ∧ InvMap (writeStep2 s lba).core ∧
      NoValid (writeStep2 s lba).core (some lba) := by
  simp only [writeStep2]
  split
  · rename_i bp hmapped
    set b := bp.1 with hbdef
    set i := bp.2 with hidef
    have hbp : bp = (b, i) := rfl
    by_cases hblen : b < s.core.nand.blocks.length
    · have hbwf := blockAt_wf hwf b hblen
      have hiwf := invalidate_page_wf hbwf i
      have hid : ((s.blockAt b).invalidate_page i).block_id = b := by
        rw [invalidate_page_id]
        exact hwf.ids b hblen
      have hpg_unch : ∀ bi pi, ¬(bi = b ∧ pi = i) →
          ((s.invalidateAt b i).blockAt bi).pages.getD pi Page.fresh
            = (s.blockAt bi).pages.getD pi Page.fresh := by
        intro bi pi hne
        by_cases hbb : bi = b
        · rw [hbb]
          have hblk : (s.invalidateAt b i).blockAt b = (s.blockAt b).invalidate_page i :=
            blockAt_setBlockAt_self s b _ hblen
          rw [hblk, Block.invalidate_page]
          split
          · split
            · simp only
              exact getD_set_ne _ _ _ _ _ (fun hh => hne ⟨hbb, hh.symm⟩)
            · rfl
          · rfl
        · have hblk : (s.invalidateAt b i).blockAt bi = s.blockAt bi :=
            blockAt_setBlockAt_ne s b bi _ (fun hh => hbb hh.symm)
          rw [hblk]
      have hpg_at : ¬ ∃ t, ((s.invalidateAt b i).blockAt b).pages.getD i Page.fresh
          = ⟨.VALID, t⟩ := by
        rintro ⟨t, ht⟩
        have hblk : (s.invalidateAt b i).blockAt b = (s.blockAt b).invalidate_page i :=
          blockAt_setBlockAt_self s b _ hblen
        rw [hblk, Block.invalidate_page] at ht
        by_cases hrange : i < (s.blockAt b).pages_per_block
        · rw [if_pos hrange] at ht
          by_cases hval : ((s.blockAt b).pages.getD i Page.fresh).state = .VALID
          · rw [if_pos hval] at ht
            simp only at ht
            rw [getD_set_self _ _ _ _ (by
              have h7 := hbwf.len_eq
              have h8 := hbwf.ppb_eq
              omega)] at ht
            simp at ht
          · rw [if_neg hval] at ht
            exact hval (by rw [ht])
        · rw [if_neg hrange] at ht
          have hb2 := valid_page_bounds s b i (by rw [ht])
          have h7 := hbwf.len_eq
          have h8 := hbwf.ppb_eq
          omega
      have hl2p : (s.invalidateAt b i).core.l2p = s.core.l2p := rfl
      refine ⟨coreWF_setBlockAt hwf hiwf hid, ?_, ?_⟩
      · intro t bi pi hv2
        by_cases hat : bi = b ∧ pi = i
        · obtain ⟨hb1, hp1⟩ := hat
          rw [hb1, hp1] at hv2
          exact absurd ⟨t, page_of_validTaggedAt _ t b i hv2⟩ hpg_at
        · have hpg := page_of_validTaggedAt _ t bi pi hv2
          rw [hpg_unch bi pi hat] at hpg
          rw [hl2p]
          exact hinv t bi pi (validTaggedAt_of_page s t bi pi hpg)
      · intro bi pi hv2
        by_cases hat : bi = b ∧ pi = i
        · obtain ⟨hb1, hp1⟩ := hat
          rw [hb1, hp1] at hv2
          exact absurd ⟨some lba, page_of_validTaggedAt _ _ b i hv2⟩ hpg_at
        · have hpg := page_of_validTaggedAt _ _ bi pi hv2
          rw [hpg_unch bi pi hat] at hpg
          have h6 := hinv (some lba) bi pi (validTaggedAt_of_page s _ bi pi hpg)
          rw [hmapped, hbp] at h6
          have h9 := Option.some.inj h6
          have h10 : b = bi ∧ i = pi := by simpa using h9
          exact hat ⟨h10.1.symm, h10.2.symm⟩
    · have hnand : (s.invalidateAt b i).core.nand = s.core.nand := by
        rw [show (s.invalidateAt b i).core.nand
            = { s.core.nand with blocks :=
                s.core.nand.blocks.set b ((s.blockAt b).invalidate_page i) } from rfl]
        rw [set_oob _ _ _ (by omega)]
      refine ⟨@coreWF_of_nand_eq s.core _ hnand hwf, @invMap_of_eq s.core _ hnand rfl hinv, ?_⟩
      intro bi pi hv2
      have hv2' : ValidTaggedAt s.core (some lba) bi pi := by
        rw [ValidTaggedAt] at hv2 ⊢
        rw [hnand] at hv2
        exact hv2
      have h6 := hinv (some lba) bi pi hv2'
      rw [hmapped, hbp] at h6
      have h9 := Option.some.inj h6
      have h10 : b = bi ∧ i = pi := by simpa using h9
      have hb2 := hv2'.1
      omega
  · rename_i hunmapped
    refine ⟨hwf, hinv, ?_⟩
    intro bi pi hv2
    have h6 := hinv (some lba) bi pi hv2
    rw [hunmapped] at h6
    exact Option.noConfusion h6

theorem genMigrate_novalid {α : Type} {alloc : Alloc α}
    (Ha1 : ∀ s : FTLState α, ((alloc s).2).core = s.core)
    (Ha2 : ∀ (s : FTLState α) (bp : Nat × Nat) (s1 : FTLState α), CoreWF s.core →
      alloc s = (some bp, s1) →
      bp.1 < s.core.nand.blocks.length ∧ 0 < (s.blockAt bp.1).free_pages)
    (v : Nat) (tb : Option Nat) :
    ∀ (fuel i : Nat) (s : FTLState α), CoreWF s.core → NoValid s.core tb →
      NoValid (genMigrate alloc v fuel i s).core tb := by
  intro fuel
  induction fuel with
  | zero => intro i s _ hno; exact hno
  | succ n ih =>
    intro i s hwf hno
    simp only [genMigrate]
    split
    · rename_i hval
      split
      · rename_i bp s1 heq
        have hc1 : s1.core = s.core := by
          have h0 := Ha1 s
          rw [heq] at h0
          exact h0
        have hbound := Ha2 s bp s1 hwf heq
        have hblk1 : ∀ x, s1.blockAt x = s.blockAt x := by
          intro x
          rw [FTLState.blockAt, FTLState.blockAt, hc1]
        set t0 := ((s.blockAt v).pages.getD i Page.fresh).logical_address with ht0
        have hpage : (s.blockAt v).pages.getD i Page.fresh = ⟨.VALID, t0⟩ := by
          rw [ht0]
          have h5 : (s.blockAt v).pages.getD i Page.fresh
              = ⟨((s.blockAt v).pages.getD i Page.fresh).state,
                 ((s.blockAt v).pages.getD i Page.fresh).logical_address⟩ := rfl
          rw [h5, hval]
        have hvt : ValidTaggedAt s.core t0 v i := validTaggedAt_of_page s t0 v i hpage
        have ht0ne : t0 ≠ tb := fun hh => hno v i (hh ▸ hvt)
        have hwf1 : CoreWF s1.core := by rw [hc1]; exact hwf
        have hbi1 : bp.1 < s1.core.nand.blocks.length := by rw [hc1]; exact hbound.1
        have hfree1 : 0 < (s1.blockAt bp.1).free_pages := by rw [hblk1]; exact hbound.2
        obtain ⟨hwf2, _, hl2p2, hpages2, hnew2, _, _, _⟩ := tryProgram_char t0 hwf1 hbi1 hfree1
        refine ih (i + 1) _ hwf2 ?_
        intro b p hv2
        by_cases hat : b = bp.1 ∧ p = (s1.blockAt bp.1).next_free_page_index
        · obtain ⟨hb1, hp1⟩ := hat
          rw [hb1, hp1] at hv2
          have hpg := page_of_validTaggedAt _ _ _ _ hv2
          rw [hnew2] at hpg
          have h7 := congrArg Page.logical_address hpg
          exact ht0ne (by simpa using h7)
        · have hpg := page_of_validTaggedAt _ _ _ _ hv2
          rw [hpages2 b p hat, hblk1 b] at hpg
          exact hno b p (validTaggedAt_of_page s tb b p hpg)
      · rename_i s1 heq
        have hc1 : s1.core = s.core := by
          have h0 := Ha1 s
          rw [heq] at h0
          exact h0
        rw [hc1]
        exact hno
    · exact ih (i + 1) s hwf hno

theorem genGC_novalid {α : Type} {select : FTLState α → Option Nat} {alloc : Alloc α}
    (Ha1 : ∀ s : FTLState α, ((alloc s).2).core = s.core)
    (Ha2 : ∀ (s : FTLState α) (bp : Nat × Nat) (s1 : FTLState α), CoreWF s.core →
      alloc s = (some bp, s1) →
      bp.1 < s.core.nand.blocks.length ∧ 0 < (s.blockAt bp.1).free_pages)
    (s : FTLState α) (tb : Option Nat) (hwf : CoreWF s.core) (hno : NoValid s.core tb) :
    NoValid (genGC select alloc s).core tb := by
  simp only [genGC]
  set s1 := s.modifyCore (fun c => { c with gc_count := c.gc_count + 1 }) with hs1
  have hwf1 : CoreWF s1.core := @coreWF_of_nand_eq s.core _ rfl hwf
  have hno1 : NoValid s1.core tb := fun b p hv => hno b p hv
  split
  · exact hno1
  · rename_i v heq
    have hno2 := genMigrate_novalid Ha1 Ha2 v tb ((s1.blockAt v).pages.length) 0 s1 hwf1 hno1
    set s2 := genMigrate alloc v ((s1.blockAt v).pages.length) 0 s1 with hs2
    intro b p hv2
    by_cases hbv : b = v
    · by_cases hvlen : v < s2.core.nand.blocks.length
      · rw [hbv] at hv2
        have hpg := page_of_validTaggedAt _ _ _ _ hv2
        have hblk : (s2.eraseAt v).blockAt v = (s2.blockAt v).erase :=
          blockAt_setBlockAt_self s2 v _ hvlen
        rw [hblk, Block.erase] at hpg
        simp only at hpg
        rw [getD_replicate_fresh] at hpg
        simp [Page.fresh] at hpg
      · have hnand : (s2.eraseAt v).core.nand = s2.core.nand := by
          rw [show (s2.eraseAt v).core.nand
              = { s2.core.nand with blocks := s2.core.nand.blocks.set v ((s2.blockAt v).erase) }
              from rfl]
          rw [set_oob _ _ _ (by omega)]
        refine hno2 b p ?_
        rw [ValidTaggedAt] at hv2 ⊢
        rw [hnand] at hv2
        exact hv2
    · have hblk : (s2.eraseAt v).blockAt b = s2.blockAt b :=
        blockAt_setBlockAt_ne s2 v b _ (fun hh => hbv hh.symm)
      have hpg := page_of_validTaggedAt _ _ _ _ hv2
      rw [hblk] at hpg
      exact hno2 b p (validTaggedAt_of_page s2 tb b p hpg)

/-- `finishWrite` on a well-formed state with no valid page tagged `lba` and
a free slot at the allocated block: it succeeds and re-establishes `InvMap`. -/
theorem finishWrite_inv {α : Type} (s : FTLState α) (bi lba : Nat) (hwf : CoreWF s.core)
    (hinv : InvMap s.core) (hno : NoValid s.core (some lba))
    (hbi : bi < s.core.nand.blocks.length) (hfree : 0 < (s.blockAt bi).free_pages) :
    (finishWrite s bi lba).2 = none ∧ CoreWF ((finishWrite s bi lba).1).core ∧
      InvMap ((finishWrite s bi lba).1).core := by
  obtain ⟨hwf2, hok, hl2p2, hpages2, hnew2, _, _, _⟩ := tryProgram_char (some lba) hwf hbi hfree
  have hfin : finishWrite s bi lba = ((s.tryProgram bi (some lba)).1, none) := by
    simp [finishWrite, hok]
  rw [hfin]
  refine ⟨rfl, hwf2, ?_⟩
  intro t b p hv2
  by_cases hat : b = bi ∧ p = (s.blockAt bi).next_free_page_index
  · obtain ⟨hb1, hp1⟩ := hat
    rw [hb1, hp1] at hv2
    have hpg := page_of_validTaggedAt _ _ _ _ hv2
    rw [hnew2] at hpg
    have ht : t = some lba := by
      have h7 := congrArg Page.logical_address hpg
      simpa using h7.symm
    rw [ht, hl2p2]
    simp only [if_pos]
    rw [hb1, hp1]
  · have hpg := page_of_validTaggedAt _ _ _ _ hv2
    rw [hpages2 b p hat] at hpg
    have hvs := validTaggedAt_of_page s t b p hpg
    by_cases ht : t = some lba
    · exact absurd (ht ▸ hvs) (hno b p)
    · rw [hl2p2]
      simp only [if_neg ht]
      exact hinv t b p hvs

theorem writeStep3_inv {α : Type} {alloc : Alloc α} {gcf : FTLState α → FTLState α}
    (Ha1 : ∀ s : FTLState α, ((alloc s).2).core = s.core)
    (Ha2 : ∀ (s : FTLState α) (bp : Nat × Nat) (s1 : FTLState α), CoreWF s.core →
      alloc s = (some bp, s1) →
      bp.1 < s.core.nand.blocks.length ∧ 0 < (s.blockAt bp.1).free_pages)
    (Hgc : ∀ s : FTLState α, CoreWF s.core → InvMap s.core →
      CoreWF (gcf s).core ∧ InvMap (gcf s).core)
    (HgcNo : ∀ (s : FTLState α) (tb : Option Nat), CoreWF s.core → NoValid s.core tb →
      NoValid (gcf s).core tb)
    (s : FTLState α) (lba : Nat) (hwf : CoreWF s.core) (hinv : InvMap s.core)
    (hno : NoValid s.core (some lba)) :
    (writeStep3 alloc gcf s lba).2 ≠ some .AllocFailed ∧
      CoreWF ((writeStep3 alloc gcf s lba).1).core ∧
      InvMap ((writeStep3 alloc gcf s lba).1).core := by
  simp only [writeStep3]
  split
  · rename_i bp s1 heq
    have hc1 : s1.core = s.core := by
      have h0 := Ha1 s
      rw [heq] at h0
      exact h0
    have hbound := Ha2 s bp s1 hwf heq
    have hwf1 : CoreWF s1.core := by rw [hc1]; exact hwf
    have hinv1 : InvMap s1.core := by rw [hc1]; exact hinv
    have hno1 : NoValid s1.core (some lba) := by rw [hc1]; exact hno
    have hbi1 : bp.1 < s1.core.nand.blocks.length := by rw [hc1]; exact hbound.1
    have hfree1 : 0 < (s1.blockAt bp.1).free_pages := by
      rw [show s1.blockAt bp.1 = s.blockAt bp.1 from by
        rw [FTLState.blockAt, FTLState.blockAt, hc1]]
      exact hbound.2
    obtain ⟨herr, hwf2, hinv2⟩ := finishWrite_inv s1 bp.1 lba hwf1 hinv1 hno1 hbi1 hfree1
    exact ⟨by rw [herr]; exact fun hh => Option.noConfusion hh, hwf2, hinv2⟩
  · rename_i s1 heq
    have hc1 : s1.core = s.core := by
      have h0 := Ha1 s
      rw [heq] at h0
      exact h0
    have hwf1 : CoreWF s1.core := by rw [hc1]; exact hwf
    have hinv1 : InvMap s1.core := by rw [hc1]; exact hinv
    have hno1 : NoValid s1.core (some lba) := by rw [hc1]; exact hno
    obtain ⟨hwfg, hinvg⟩ := Hgc s1 hwf1 hinv1
    have hnog := HgcNo s1 (some lba) hwf1 hno1
    split
    · rename_i bp s3 heq3
      have hc3 : s3.core = (gcf s1).core := by
        have h0 := Ha1 (gcf s1)
        rw [heq3] at h0
        exact h0
      have hbound := Ha2 (gcf s1) bp s3 hwfg heq3
      have hwf3 : CoreWF s3.core := by rw [hc3]; exact hwfg
      have hinv3 : InvMap s3.core := by rw [hc3]; exact hinvg
      have hno3 : NoValid s3.core (some lba) := by rw [hc3]; exact hnog
      have hbi3 : bp.1 < s3.core.nand.blocks.length := by rw [hc3]; exact hbound.1
      have hfree3 : 0 < (s3.blockAt bp.1).free_pages := by
        rw [show s3.blockAt bp.1 = (gcf s1).blockAt bp.1 from by
          rw [FTLState.blockAt, FTLState.blockAt, hc3]]
        exact hbound.2
      obtain ⟨herr, hwf4, hinv4⟩ := finishWrite_inv s3 bp.1 lba hwf3 hinv3 hno3 hbi3 hfree3
      exact ⟨by rw [herr]; exact fun hh => Option.noConfusion hh, hwf4, hinv4⟩
    · rename_i s3 heq3
      have hc3 : s3.core = (gcf s1).core := by
        have h0 := Ha1 (gcf s1)
        rw [heq3] at h0
        exact h0
      refine ⟨by simp, ?_, ?_⟩
      · rw [hc3]; exact hwfg
      · rw [hc3]; exact hinvg

theorem genWrite_inv {α : Type} {alloc : Alloc α} {gcf : FTLState α → FTLState α}
    (Ha1 : ∀ s : FTLState α, ((alloc s).2).core = s.core)
    (Ha2 : ∀ (s : FTLState α) (bp : Nat × Nat) (s1 : FTLState α), CoreWF s.core →
      alloc s = (some bp, s1) →
      bp.1 < s.core.nand.blocks.length ∧ 0 < (s.blockAt bp.1).free_pages)
    (Hgc : ∀ s : FTLState α, CoreWF s.core → InvMap s.core →
      CoreWF (gcf s).core ∧ InvMap (gcf s).core)
    (HgcNo : ∀ (s : FTLState α) (tb : Option Nat), CoreWF s.core → NoValid s.core tb →
      NoValid (gcf s).core tb)
    (s : FTLState α) (lba : Nat) (hwf : CoreWF s.core) (hinv : InvMap s.core) :
    (genWrite alloc gcf s lba).2 ≠ some .AllocFailed ∧
      CoreWF ((genWrite alloc gcf s lba).1).core ∧
      InvMap ((genWrite alloc gcf s lba).1).core := by
  have h1 : CoreWF (writeStep1 gcf s).core ∧ InvMap (writeStep1 gcf s).core := by
    simp only [writeStep1]
    have hwf0 : CoreWF (s.modifyCore
        (fun c => { c with host_writes := c.host_writes + 1 })).core :=
      @coreWF_of_nand_eq s.core _ rfl hwf
    have hinv0 : InvMap (s.modifyCore
        (fun c => { c with host_writes := c.host_writes + 1 })).core :=
      @invMap_of_eq s.core _ rfl rfl hinv
    split
    · exact Hgc _ hwf0 hinv0
    · exact ⟨hwf0, hinv0⟩
  obtain ⟨hwf2, hinv2, hno2⟩ := writeStep2_inv (writeStep1 gcf s) lba h1.1 h1.2
  exact writeStep3_inv Ha1 Ha2 Hgc HgcNo _ lba hwf2 hinv2 hno2

theorem baselineAllocGo_sound : ∀ (n : Nat) (s : BaselineFTL) (bp : Nat × Nat)
    (s1 : BaselineFTL), baselineAllocGo n s = (some bp, s1) →
    0 < (s.blockAt bp.1).free_pages := by
  intro n
  induction n with
  | zero => intro s bp s1 h; exact absurd h (by rw [baselineAllocGo]; simp)
  | succ m ih =>
    intro s bp s1 h
    rw [baselineAllocGo] at h
    split at h
    · rename_i hfree
      have hbp : bp = (s.st, (s.blockAt s.st).next_free_page_index) := by
        have h9 := congrArg Prod.fst h
        simpa using h9.symm
      rw [hbp]
      exact hfree
    · have := ih _ bp s1 h
      rw [show ({ s with st := (s.st + 1) % s.core.nand.total_blocks } : BaselineFTL).blockAt bp.1
          = s.blockAt bp.1 from rfl] at this
      exact this

theorem baselineAlloc_sound (s : BaselineFTL) (bp : Nat × Nat) (s1 : BaselineFTL)
    (_hwf : CoreWF s.core) (h : baselineAlloc s = (some bp, s1)) :
    bp.1 < s.core.nand.blocks.length ∧ 0 < (s.blockAt bp.1).free_pages := by
  have hfree := baselineAllocGo_sound _ s bp s1 h
  refine ⟨?_, hfree⟩
  by_contra hge
  rw [blockAt_oob s bp.1 (by omega)] at hfree
  exact absurd hfree (by rw [Block.init]; simp)

theorem adaptiveAllocGo_sound : ∀ (l : List Block) (bid idx : Nat),
    adaptiveAllocGo l = some (bid, idx) →
    ∃ b ∈ l, b.block_id = bid ∧ 0 < b.free_pages := by
  intro l
  induction l with
  | nil => intro bid idx h; exact absurd h (by rw [adaptiveAllocGo]; simp)
  | cons b rest ih =>
    intro bid idx h
    rw [adaptiveAllocGo] at h
    split at h
    · rename_i hfree
      have hb : b.block_id = bid := by
        have h9 := congrArg (fun o => Option.map Prod.fst o) h
        simpa using h9
      exact ⟨b, List.mem_cons_self b rest, hb, hfree⟩
    · obtain ⟨x, hx, hid, hfr⟩ := ih bid idx h
      exact ⟨x, List.mem_cons_of_mem b hx, hid, hfr⟩

theorem adaptiveAlloc_sound (s : AdaptiveFTL) (bp : Nat × Nat) (s1 : AdaptiveFTL)
    (hwf : CoreWF s.core) (h : adaptiveAlloc s = (some bp, s1)) :
    bp.1 < s.core.nand.blocks.length ∧ 0 < (s.blockAt bp.1).free_pages := by
  have hgo : adaptiveAllocGo s.core.nand.blocks = some bp := by
    have h9 := congrArg Prod.fst h
    simpa [adaptiveAlloc] using h9
  obtain ⟨b, hmem, hid, hfr⟩ := adaptiveAllocGo_sound _ bp.1 bp.2 (by rw [hgo])
  rcases List.mem_iff_get.mp hmem with ⟨⟨k, hk⟩, hget⟩
  have hgd : s.core.nand.blocks.getD k (Block.init 0 0) = b := by
    rw [List.getD_eq_getElem _ _ hk]
    simp only [List.get_eq_getElem] at hget
    rw [hget]
  have hkid : b.block_id = k := by
    have := hwf.ids k hk
    rw [hgd] at this
    exact this
  have hbid : bp.1 = k := by rw [← hid, hkid]
  refine ⟨by omega, ?_⟩
  rw [FTLState.blockAt, NANDFlash.get_block, hbid, hgd]
  exact hfr

theorem adaptWeights_core (s : AdaptiveFTL) : (adaptWeights s).core = s.core := by
  simp only [adaptWeights]
  split
  · rfl
  · rfl

theorem tryProgram_counts {α : Type} (s : FTLState α) (bi : Nat) (tag : Option Nat) :
    ((s.tryProgram bi tag).1).core.host_writes = s.core.host_writes ∧
    s.core.total_writes ≤ ((s.tryProgram bi tag).1).core.total_writes := by
  simp only [FTLState.tryProgram, FTLState.setBlockAt, FTLState.modifyCore]
  split
  · exact ⟨rfl, Nat.le_succ _⟩
  · exact ⟨rfl, le_refl _⟩

theorem tryProgram_total_of_ok {α : Type} (s : FTLState α) (bi : Nat) (t : Option Nat)
    (h : (s.tryProgram bi t).2.1 = true) :
    ((s.tryProgram bi t).1).core.total_writes = s.core.total_writes + 1 := by
  rcases hwp : (s.blockAt bi).write_page t with ⟨ok, idx, b'⟩
  have he := tryProgram_eq_of_write s bi t ok idx b' hwp
  rw [he] at h ⊢
  cases ok with
  | false => exact absurd h (by simp)
  | true =>
    rw [if_pos rfl]
    rfl

theorem genMigrate_counts {α : Type} {alloc : Alloc α}
    (ha : ∀ s : FTLState α, ((alloc s).2).core = s.core) (v : Nat) :
    ∀ (fuel i : Nat) (s : FTLState α),
      (genMigrate alloc v fuel i s).core.host_writes = s.core.host_writes ∧
      s.core.total_writes ≤ (genMigrate alloc v fuel i s).core.total_writes := by
  intro fuel
  induction fuel with
  | zero => intro i s; exact ⟨rfl, le_refl _⟩
  | succ n ih =>
    intro i s
    simp only [genMigrate]
    split
    · split
      · rename_i bp s1 heq
        have h2 := ha s
        rw [heq] at h2
        have t1 : s.core.total_writes = s1.core.total_writes :=
          congrArg Core.total_writes h2.symm
        have t2 := (tryProgram_counts s1 bp.1
          ((s.blockAt v).pages.getD i Page.fresh).logical_address).2
        have t3 := (ih (i + 1)
          ((s1.tryProgram bp.1 ((s.blockAt v).pages.getD i Page.fresh).logical_address).1)).2
        constructor
        · rw [(ih _ _).1, tryProgram_core_host]
          exact congrArg Core.host_writes h2
        · omega
      · rename_i s1 heq
        have h2 := ha s
        rw [heq] at h2
        exact ⟨congrArg Core.host_writes h2, le_of_eq (congrArg Core.total_writes h2.symm)⟩
    · exact ih _ s

theorem genGC_counts {α : Type} {select : FTLState α → Option Nat} {alloc : Alloc α}
    (ha : ∀ s : FTLState α, ((alloc s).2).core = s.core) (s : FTLState α) :
    (genGC select alloc s).core.host_writes = s.core.host_writes ∧
    s.core.total_writes ≤ (genGC select alloc s).core.total_writes := by
  simp only [genGC]
  split
  · exact ⟨rfl, le_refl _⟩
  · rename_i v heq
    rw [FTLState.eraseAt, FTLState.setBlockAt, FTLState.modifyCore]
    have hm := genMigrate_counts ha v
      (((s.modifyCore (fun c => { c with gc_count := c.gc_count + 1 })).blockAt v).pages.length)
      0 (s.modifyCore (fun c => { c with gc_count := c.gc_count + 1 }))
    exact ⟨hm.1.trans rfl, le_trans (le_of_eq rfl) hm.2⟩

theorem writeStep1_counts {α : Type} {gcf : FTLState α → FTLState α}
    (hg : ∀ s : FTLState α, (gcf s).core.host_writes = s.core.host_writes ∧
      s.core.total_writes ≤ (gcf s).core.total_writes) (s : FTLState α) :
    (writeStep1 gcf s).core.host_writes = s.core.host_writes + 1 ∧
    s.core.total_writes ≤ (writeStep1 gcf s).core.total_writes := by
  simp only [writeStep1]
  split
  · obtain ⟨g1, g2⟩ := hg
      (s.modifyCore (fun c => { c with host_writes := c.host_writes + 1 }))
    exact ⟨g1.trans rfl, le_trans (le_of_eq rfl) g2⟩
  · exact ⟨rfl, le_refl _⟩

theorem writeStep2_counts {α : Type} (s : FTLState α) (lba : Nat) :
    (writeStep2 s lba).core.host_writes = s.core.host_writes ∧
    (writeStep2 s lba).core.total_writes = s.core.total_writes := by
  simp only [writeStep2]
  split
  · exact ⟨rfl, rfl⟩
  · exact ⟨rfl, rfl⟩

theorem finishWrite_counts {α : Type} (s : FTLState α) (bi lba : Nat) :
    ((finishWrite s bi lba).1).core.host_writes = s.core.host_writes ∧
    ((finishWrite s bi lba).2 = none →
      s.core.total_writes + 1 ≤ ((finishWrite s bi lba).1).core.total_writes) := by
  simp only [finishWrite]
  split
  · rename_i hok
    exact ⟨tryProgram_core_host s bi _,
      fun _ => le_of_eq (tryProgram_total_of_ok s bi _ hok).symm⟩
  · exact ⟨tryProgram_core_host s bi _, fun hcontra => absurd hcontra (by simp)⟩

theorem writeStep3_counts {α : Type} {alloc : Alloc α} {gcf : FTLState α → FTLState α}
    (Ha1 : ∀ s : FTLState α, ((alloc s).2).core = s.core)
    (hg : ∀ s : FTLState α, (gcf s).core.host_writes = s.core.host_writes ∧
      s.core.total_writes ≤ (gcf s).core.total_writes)
    (s : FTLState α) (lba : Nat) :
    ((writeStep3 alloc gcf s lba).1).core.host_writes = s.core.host_writes ∧
    ((writeStep3 alloc gcf s lba).2 = none →
      s.core.total_writes + 1 ≤ ((writeStep3 alloc gcf s lba).1).core.total_writes) := by
  simp only [writeStep3]
  split
  · rename_i bp s1 heq
    have hc1 : s1.core = s.core := by
      have h0 := Ha1 s; rw [heq] at h0; exact h0
    obtain ⟨fh, ft⟩ := finishWrite_counts s1 bp.1 lba
    refine ⟨by rw [fh, hc1], fun hn => ?_⟩
    have h3 := ft hn
    rw [hc1] at h3
    exact h3
  · rename_i s1 heq
    have hc1 : s1.core = s.core := by
      have h0 := Ha1 s; rw [heq] at h0; exact h0
    obtain ⟨gh, gt⟩ := hg s1
    split
    · rename_i bp s3 heq3
      have hc3 : s3.core = (gcf s1).core := by
        have h0 := Ha1 (gcf s1); rw [heq3] at h0; exact h0
      obtain ⟨fh, ft⟩ := finishWrite_counts s3 bp.1 lba
      refine ⟨by rw [fh, hc3, gh, hc1], fun hn => ?_⟩
      have h1 := ft hn
      have h2 : s.core.total_writes ≤ s3.core.total_writes := by
        rw [hc3]
        exact le_trans (le_of_eq (congrArg Core.total_writes hc1.symm)) gt
      omega
    · rename_i s3 heq3
      have hc3 : s3.core = (gcf s1).core := by
        have h0 := Ha1 (gcf s1); rw [heq3] at h0; exact h0
      exact ⟨by rw [hc3, gh, hc1], fun hn => absurd hn (by simp)⟩

theorem genWrite_counts {α : Type} {alloc : Alloc α} {gcf : FTLState α → FTLState α}
    (Ha1 : ∀ s : FTLState α, ((alloc s).2).core = s.core)
    (hg : ∀ s : FTLState α, (gcf s).core.host_writes = s.core.host_writes ∧
      s.core.total_writes ≤ (gcf s).core.total_writes)
    (s : FTLState α) (lba : Nat) (hn : (genWrite alloc gcf s lba).2 = none) :
    (genWrite alloc gcf s lba).1.core.host_writes = s.core.host_writes + 1 ∧
    s.core.total_writes + 1 ≤ (genWrite alloc gcf s lba).1.core.total_writes := by
  obtain ⟨w1h, w1t⟩ := writeStep1_counts hg s
  obtain ⟨w2h, w2t⟩ := writeStep2_counts (writeStep1 gcf s) lba
  obtain ⟨w3h, w3t⟩ := writeStep3_counts Ha1 hg (writeStep2 (writeStep1 gcf s) lba) lba
  have hn' : (writeStep3 alloc gcf (writeStep2 (writeStep1 gcf s) lba) lba).2 = none := hn
  have h3 := w3t hn'
  constructor
  · show (writeStep3 alloc gcf (writeStep2 (writeStep1 gcf s) lba) lba).1.core.host_writes
      = s.core.host_writes + 1
    rw [w3h, w2h, w1h]
  · show s.core.total_writes + 1
      ≤ (writeStep3 alloc gcf (writeStep2 (writeStep1 gcf s) lba) lba).1.core.total_writes
    omega

theorem baselineGC_counts (s : BaselineFTL) :
    (baselineGC s).core.host_writes = s.core.host_writes ∧
    s.core.total_writes ≤ (baselineGC s).core.total_writes :=
  genGC_counts baselineAlloc_core s

theorem adaptiveGC_counts (s : AdaptiveFTL) :
    (adaptiveGC s).core.host_writes = s.core.host_writes ∧
    s.core.total_writes ≤ (adaptiveGC s).core.total_writes :=
  genGC_counts adaptiveAlloc_core s

theorem baselineWrite_ok_counts (s : BaselineFTL) (lba : Nat)
    (hn : (baselineWrite s lba).2 = none) :
    (baselineWrite s lba).1.core.host_writes = s.core.host_writes + 1 ∧
    s.core.total_writes + 1 ≤ (baselineWrite s lba).1.core.total_writes :=
  genWrite_counts baselineAlloc_core baselineGC_counts s lba hn

theorem adaptiveWrite_cases (s : AdaptiveFTL) (lba : Nat) :
    ∃ s0 : AdaptiveFTL, s0.core = s.core ∧
      ((∃ e, (genWrite adaptiveAlloc adaptiveGC s0 lba).2 = some e ∧
          adaptiveWrite s lba = ((genWrite adaptiveAlloc adaptiveGC s0 lba).1, some e)) ∨
        ((genWrite adaptiveAlloc adaptiveGC s0 lba).2 = none ∧
          (adaptiveWrite s lba).2 = none ∧
          (adaptiveWrite s lba).1.core = (genWrite adaptiveAlloc adaptiveGC s0 lba).1.core)) := by
  refine ⟨{ s with st := { s.st with
    lba_access_count := fun k =>
      if k = lba then s.st.lba_access_count lba + 1 else s.st.lba_access_count k } },
    rfl, ?_⟩
  simp only [adaptiveWrite]
  split
  · rename_i e heq
    exact Or.inl ⟨e, heq, rfl⟩
  · rename_i heq
    refine Or.inr ⟨heq, rfl, ?_⟩
    split
    · exact adaptWeights_core _
    · rfl

theorem adaptiveWrite_ok_counts (s : AdaptiveFTL) (lba : Nat)
    (hn : (adaptiveWrite s lba).2 = none) :
    (adaptiveWrite s lba).1.core.host_writes = s.core.host_writes + 1 ∧
    s.core.total_writes + 1 ≤ (adaptiveWrite s lba).1.core.total_writes := by
  obtain ⟨s0, hc0, hcase⟩ := adaptiveWrite_cases s lba
  rcases hcase with ⟨e, heq, hw⟩ | ⟨heq, _, hcore⟩
  · rw [hw] at hn
    exact absurd hn (by simp)
  · obtain ⟨hh, ht⟩ := genWrite_counts adaptiveAlloc_core adaptiveGC_counts s0 lba heq
    rw [hc0] at hh ht
    rw [hcore]
    exact ⟨hh, ht⟩

theorem baselineGC_inv (s : BaselineFTL) (hwf : CoreWF s.core) (hinv : InvMap s.core) :
    CoreWF (baselineGC s).core ∧ InvMap (baselineGC s).core :=
  genGC_inv baselineAlloc_core baselineAlloc_sound s hwf hinv

theorem baselineGC_novalid (s : BaselineFTL) (tb : Option Nat) (hwf : CoreWF s.core)
    (hno : NoValid s.core tb) : NoValid (baselineGC s).core tb :=
  genGC_novalid baselineAlloc_core baselineAlloc_sound s tb hwf hno

theorem adaptiveGC_inv (s : AdaptiveFTL) (hwf : CoreWF s.core) (hinv : InvMap s.core) :
    CoreWF (adaptiveGC s).core ∧ InvMap (adaptiveGC s).core :=
  genGC_inv adaptiveAlloc_core adaptiveAlloc_sound s hwf hinv

theorem adaptiveGC_novalid (s : AdaptiveFTL) (tb : Option Nat) (hwf : CoreWF s.core)
    (hno : NoValid s.core tb) : NoValid (adaptiveGC s).core tb :=
  genGC_novalid adaptiveAlloc_core adaptiveAlloc_sound s tb hwf hno

theorem getD_map_range {β : Type} (f : Nat → β) (n i : Nat) (d : β) (h : i < n) :
    ((List.range n).map f).getD i d = f i := by
  rw [List.getD_eq_getElem _ _ (by simpa using h)]
  simp

theorem coreWF_init (tb ppb : Nat) (op : ℚ) : CoreWF (Core.init tb ppb op) := by
  refine ⟨?_, ?_, ?_⟩
  · simp [Core.init, NANDFlash.init]
  · intro i hi
    have hi' : i < tb := by simpa [Core.init, NANDFlash.init] using hi
    have hblk : (Core.init tb ppb op).nand.blocks.getD i (Block.init 0 0)
        = Block.init i ppb := by
      show ((List.range tb).map (fun j => Block.init j ppb)).getD i (Block.init 0 0) = _
      exact getD_map_range _ tb i _ hi'
    rw [hblk]
    rfl
  · intro i hi
    have hi' : i < tb := by simpa [Core.init, NANDFlash.init] using hi
    have hblk : (Core.init tb ppb op).nand.blocks.getD i (Block.init 0 0)
        = Block.init i ppb := by
      show ((List.range tb).map (fun j => Block.init j ppb)).getD i (Block.init 0 0) = _
      exact getD_map_range _ tb i _ hi'
    rw [hblk]
    exact blockWF_init i ppb

theorem invMap_init (tb ppb : Nat) (op : ℚ) : InvMap (Core.init tb ppb op) := by
  intro t bi pi hv
  exfalso
  obtain ⟨hb, hp, hpg⟩ := hv
  have hb' : bi < tb := by simpa [Core.init, NANDFlash.init] using hb
  have hblk : (Core.init tb ppb op).nand.blocks.getD bi (Block.init 0 0)
      = Block.init bi ppb := by
    show ((List.range tb).map (fun j => Block.init j ppb)).getD bi (Block.init 0 0) = _
    exact getD_map_range _ tb bi _ hb'
  rw [hblk] at hpg
  have hfr : (Block.init bi ppb).pages.getD pi Page.fresh = Page.fresh := by
    show (List.replicate ppb Page.fresh).getD pi Page.fresh = Page.fresh
    exact getD_replicate_fresh ppb pi
  rw [hfr] at hpg
  simp [Page.fresh] at hpg

theorem baselineWrite_inv (s : BaselineFTL) (lba : Nat) (hwf : CoreWF s.core)
    (hinv : InvMap s.core) :
    (baselineWrite s lba).2 ≠ some .AllocFailed ∧
      CoreWF (baselineWrite s lba).1.core ∧ InvMap (baselineWrite s lba).1.core :=
  genWrite_inv baselineAlloc_core baselineAlloc_sound baselineGC_inv baselineGC_novalid
    s lba hwf hinv

theorem adaptiveWrite_inv (s : AdaptiveFTL) (lba : Nat) (hwf : CoreWF s.core)
    (hinv : InvMap s.core) :
    (adaptiveWrite s lba).2 ≠ some .AllocFailed ∧
      CoreWF (adaptiveWrite s lba).1.core ∧ InvMap (adaptiveWrite s lba).1.core := by
  obtain ⟨s0, hc0, hcase⟩ := adaptiveWrite_cases s lba
  have h := genWrite_inv adaptiveAlloc_core adaptiveAlloc_sound adaptiveGC_inv
    adaptiveGC_novalid s0 lba (by rw [hc0]; exact hwf) (by rw [hc0]; exact hinv)
  rcases hcase with ⟨e, heq, hw⟩ | ⟨heq, hn, hcore⟩
  · rw [hw]
    refine ⟨?_, h.2.1, h.2.2⟩
    intro hcontra
    simp only [] at hcontra
    have he : e = .AllocFailed := by simpa using hcontra
    exact h.1 (by rw [heq, he])
  · refine ⟨?_, ?_, ?_⟩
    · rw [hn]; simp
    · rw [hcore]; exact h.2.1
    · rw [hcore]; exact h.2.2

theorem breachable_wf {s : BaselineFTL} (h : BReachable s) :
    CoreWF s.core ∧ InvMap s.core := by
  induction h with
  | init s hi =>
    obtain ⟨tb, ppb, op, rfl⟩ := hi
    exact ⟨coreWF_init tb ppb op, invMap_init tb ppb op⟩
  | step s lba _ ih =>
    exact (baselineWrite_inv s lba ih.1 ih.2).2

theorem areachable_wf {s : AdaptiveFTL} (h : AReachable s) :
    CoreWF s.core ∧ InvMap s.core := by
  induction h with
  | init s hi =>
    obtain ⟨tb, ppb, op, rfl⟩ := hi
    exact ⟨coreWF_init tb ppb op, invMap_init tb ppb op⟩
  | step s lba _ ih =>
    exact (adaptiveWrite_inv s lba ih.1 ih.2).2

theorem breachableOK_counts {s : BaselineFTL} (h : ReachOK BInit baselineWrite s) :
    s.core.host_writes ≤ s.core.total_writes := by
  induction h with
  | init s hi =>
    obtain ⟨tb, ppb, op, rfl⟩ := hi
    exact le_refl _
  | step s lba _ hok ih =>
    obtain ⟨hh, ht⟩ := baselineWrite_ok_counts s lba hok
    omega

theorem areachableOK_counts {s : AdaptiveFTL} (h : ReachOK AInit adaptiveWrite s) :
    s.core.host_writes ≤ s.core.total_writes := by
  induction h with
  | init s hi =>
    obtain ⟨tb, ppb, op, rfl⟩ := hi
    exact le_refl _
  | step s lba _ hok ih =>
    obtain ⟨hh, ht⟩ := adaptiveWrite_ok_counts s lba hok
    omega

/-- **C1 (amended).**  The original "exactly one" fails (see the
counterexample: a GC whose migration stops early still erases the victim, so
a mapped address can end up with zero VALID copies).  What does hold, in
every reachable state of either strategy, is **at most one**: any two VALID
pages tagged with the same logical address occupy the same physical
position.  (A fortiori, a logical address present in `l2p_map` has at most
one VALID page tagged with it.) -/
theorem c1_at_most_one :
    (∀ s : BaselineFTL, BReachable s → ∀ (lba bi pi bj pj : Nat),
        ValidTaggedAt s.core (some lba) bi pi → ValidTaggedAt s.core (some lba) bj pj →
        bi = bj ∧ pi = pj) ∧
    (∀ s : AdaptiveFTL, AReachable s → ∀ (lba bi pi bj pj : Nat),
        ValidTaggedAt s.core (some lba) bi pi → ValidTaggedAt s.core (some lba) bj pj →
        bi = bj ∧ pi = pj) := by
  constructor
  · intro s h lba bi pi bj pj h1 h2
    have hm := (breachable_wf h).2
    have e1 := hm (some lba) bi pi h1
    have e2 := hm (some lba) bj pj h2
    rw [e1] at e2
    have e3 := Option.some.inj e2
    exact ⟨congrArg Prod.fst e3, congrArg Prod.snd e3⟩
  · intro s h lba bi pi bj pj h1 h2
    have hm := (areachable_wf h).2
    have e1 := hm (some lba) bi pi h1
    have e2 := hm (some lba) bj pj h2
    rw [e1] at e2
    have e3 := Option.some.inj e2
    exact ⟨congrArg Prod.fst e3, congrArg Prod.snd e3⟩

theorem c1_at_most_one_witness :
    ValidTaggedAt (runWrites baselineWrite (baselineInit 1 1 (qsci 1 1)) [0]).core
      (some 0) 0 0 ∧ (0 = 0 ∧ 0 = 0) := by
  have hv : ValidTaggedAt (runWrites baselineWrite (baselineInit 1 1 (qsci 1 1)) [0]).core
      (some 0) 0 0 := ⟨by decide, by decide, by decide⟩
  exact ⟨hv, c1_at_most_one.1 _
    (reach_runWrites (Reach.init _ ⟨1, 1, qsci 1 1, rfl⟩) [0]) 0 0 0 0 0 hv hv⟩

/-- **C2 (amended).**  The original claim fails for states reached through a
failed write (see the counterexample: `StorageExhausted` is raised after
`host_writes += 1` but before `total_writes += 1`, leaving WAF < 1).  For
every state reached through **successful** writes only, with
`host_writes > 0`, the WAF `total_writes / host_writes` returned by
`get_waf` is ≥ 1 — on either strategy. -/
theorem c2_waf_ge_one :
    (∀ s : BaselineFTL, ReachOK BInit baselineWrite s → 0 < s.core.host_writes →
      1 ≤ s.core.get_waf) ∧
    (∀ s : AdaptiveFTL, ReachOK AInit adaptiveWrite s → 0 < s.core.host_writes →
      1 ≤ s.core.get_waf) := by
  have key : ∀ c : Core, c.host_writes ≤ c.total_writes → 0 < c.host_writes →
      1 ≤ c.get_waf := by
    intro c hle hpos
    rw [Core.get_waf, if_neg (by omega), qdiv_eq]
    have hh : (0 : ℚ) < (c.host_writes : ℚ) := by exact_mod_cast hpos
    rw [one_le_div hh]
    exact_mod_cast hle
  exact ⟨fun s h hp => key _ (breachableOK_counts h) hp,
    fun s h hp => key _ (areachableOK_counts h) hp⟩

theorem c2_waf_ge_one_witness :
    0 < (runWrites baselineWrite (baselineInit 1 1 (qsci 1 1)) [0]).core.host_writes ∧
    1 ≤ (runWrites baselineWrite (baselineInit 1 1 (qsci 1 1)) [0]).core.get_waf := by
  refine ⟨by decide, ?_⟩
  exact c2_waf_ge_one.1 _
    (ReachOK.step _ 0 (ReachOK.init _ ⟨1, 1, qsci 1 1, rfl⟩) (by decide)) (by decide)

/-- **C4.**  Error handling of `BaseFTL.write`: (i)/(ii) on every reachable
state of either strategy, a `write` call never surfaces the internal
`"Allocation logic failed ..."` error — `StorageExhausted` is the only error
it can raise (on well-formed states, a block handed out by `allocate_page`
always has a free page, so the subsequent `write_page` succeeds); and
(iii) structurally, when the first `allocate_page` reports no block, exactly
one more `garbage_collect` pass runs, allocation is retried exactly once,
and a second failure raises `StorageExhausted`. -/
theorem c4_error_handling :
    (∀ (s : BaselineFTL) (lba : Nat), BReachable s →
        (baselineWrite s lba).2 ≠ some .AllocFailed) ∧
    (∀ (s : AdaptiveFTL) (lba : Nat), AReachable s →
        (adaptiveWrite s lba).2 ≠ some .AllocFailed) ∧
    (∀ (α : Type) (alloc : Alloc α) (gcf : FTLState α → FTLState α)
        (s : FTLState α) (lba : Nat), (alloc s).1 = none →
        writeStep3 alloc gcf s lba =
          match alloc (gcf ((alloc s).2)) with
          | (some bp, s3) => finishWrite s3 bp.1 lba
          | (none, s3) => (s3, some .StorageExhausted)) := by
  refine ⟨?_, ?_, ?_⟩
  · intro s lba h
    exact (baselineWrite_inv s lba (breachable_wf h).1 (breachable_wf h).2).1
  · intro s lba h
    exact (adaptiveWrite_inv s lba (areachable_wf h).1 (areachable_wf h).2).1
  · intro α alloc gcf s lba hn
    simp only [writeStep3]
    split
    · rename_i bp s1 heq
      rw [heq] at hn
      exact absurd hn (by simp)
    · rename_i s1 heq
      rw [heq]

theorem c4_error_handling_witness :
    (baselineWrite (baselineInit 1 1 (qsci 1 1)) 0).2 ≠ some .AllocFailed ∧
    (adaptiveWrite (adaptiveInit 1 1 (qsci 1 1)) 0).2 ≠ some .AllocFailed ∧
    ((baselineAlloc (baselineInit 1 0 (qsci 1 1))).1 = none ∧
      writeStep3 baselineAlloc baselineGC (baselineInit 1 0 (qsci 1 1)) 0 =
        match baselineAlloc (baselineGC ((baselineAlloc (baselineInit 1 0 (qsci 1 1))).2)) with
        | (some bp, s3) => finishWrite s3 bp.1 0
        | (none, s3) => (s3, some .StorageExhausted)) :=
  ⟨c4_error_handling.1 _ 0 (Reach.init _ ⟨1, 1, qsci 1 1, rfl⟩),
   c4_error_handling.2.1 _ 0 (Reach.init _ ⟨1, 1, qsci 1 1, rfl⟩),
   by decide,
   c4_error_handling.2.2 Nat baselineAlloc baselineGC (baselineInit 1 0 (qsci 1 1)) 0
     (by decide)⟩

